import Mathlib

set_option exponentiation.threshold 600
set_option maxRecDepth 100000

/-!
# Verification of the CipherGuard DAO secret-sharing core

A shallow embedding of the Shamir secret-sharing engine, the encoding
utilities and the orchestration-layer validation logic of the repository
(`src/services/cryptoService.ts`, `src/App.tsx`, `src/types.ts`), together
with proofs of the specified properties.

JavaScript `bigint` values are modelled as `ℤ`; `bigint` division `/` and
remainder `%` truncate toward zero, which is `Int.tdiv` and `Int.tmod`.
Strings are modelled as `List Char`.  Randomness is modelled by passing the
stream of values drawn from `randomBigInt()` as an explicit argument.
Fallible operations (JS exceptions) are modelled with `Option`.
-/

/-- The field modulus from `src/types.ts` (`constants`):
`PRIME_MODULUS = (2n ** 521n) - 1n`, a `bigint`. -/
def PRIME_MODULUS : ℤ := 2 ^ 521 - 1

/-- The modulus as a natural number, used as the `ZMod` index. -/
def pModN : ℕ := 2 ^ 521 - 1

theorem pModN_cast : (pModN : ℤ) = PRIME_MODULUS := by
  norm_num [pModN, PRIME_MODULUS]

/-- `2^521 - 1` is the 13th Mersenne prime (Lucas--Lehmer certificate,
checked by kernel reduction). -/
theorem pModN_prime : Nat.Prime pModN :=
  lucas_lehmer_sufficiency _ (by norm_num) (by norm_num)

instance : Fact (Nat.Prime pModN) := ⟨pModN_prime⟩

theorem pModN_pos : 0 < PRIME_MODULUS := by norm_num [PRIME_MODULUS]

theorem one_lt_pModN : 1 < PRIME_MODULUS := by norm_num [PRIME_MODULUS]

-- ### Hexadecimal rendering and parsing
--
-- `BigInt.prototype.toString(16)` renders a nonnegative bigint in lowercase
-- hexadecimal with no leading zeros (and `0n` as "0").
-- `BigInt("0x" + s)` succeeds exactly when `s` is a nonempty string of
-- hexadecimal digits (either case) and returns the denoted value.

/-- The digit characters used by `toString(16)`: `0`-`9` then lowercase
`a`-`f`. -/
def hexDigitChar (d : ℕ) : Char :=
  if d < 10 then Char.ofNat (48 + d) else Char.ofNat (87 + d)

/-- The value of a hexadecimal digit character, accepting both cases,
as accepted by `BigInt("0x" + s)`; `none` on a non-digit. -/
def hexCharVal (c : Char) : Option ℕ :=
  if 48 ≤ c.toNat ∧ c.toNat ≤ 57 then some (c.toNat - 48)
  else if 97 ≤ c.toNat ∧ c.toNat ≤ 102 then some (c.toNat - 87)
  else if 65 ≤ c.toNat ∧ c.toNat ≤ 70 then some (c.toNat - 55)
  else none

/-- Little-endian hexadecimal digits of `n`, with explicit fuel.
`fuel = n + 1` always suffices, since a number has at most `n + 1`
base-16 digits. -/
def natToHexRev : ℕ → ℕ → List Char
  | 0, _ => []
  | fuel + 1, n => if n = 0 then [] else hexDigitChar (n % 16) :: natToHexRev fuel (n / 16)

/-- `n.toString(16)` for a nonnegative bigint: big-endian lowercase hex,
with `"0"` for zero. -/
def natToHex (n : ℕ) : List Char :=
  if n = 0 then [Char.ofNat 48] else (natToHexRev (n + 1) n).reverse

/-- `v.toString(16)` for a bigint, with a leading minus sign when
negative. -/
def intToHex (v : ℤ) : List Char :=
  if v < 0 then Char.ofNat 45 :: natToHex v.natAbs else natToHex v.toNat

/-- `BigInt("0x" + s)`: succeeds on a nonempty all-hex-digit string. -/
def parseHex (s : List Char) : Option ℕ :=
  match s.mapM hexCharVal with
  | none => none
  | some ds => if ds.isEmpty then none else some (ds.foldl (fun a v => 16 * a + v) 0)

-- ### Modular inverse (`modInverse` in `src/services/cryptoService.ts`)

/-- The `while (a > 1)` loop of `modInverse`.  JS `bigint` division by zero
throws a `RangeError`, modelled as `none`.  The fuel argument is an
artifact of the embedding: each iteration strictly decreases `|m|`
(the new `m` is `a % m`), so `|m| + 2` iterations always suffice and the
fuel-exhaustion branch is unreachable from `modInverse`. -/
def egcdLoop : ℕ → ℤ → ℤ → ℤ → ℤ → Option ℤ
  | 0, _, _, _, _ => none
  | fuel + 1, a, m, x, y =>
    if 1 < a then
      if m = 0 then none
      else egcdLoop fuel m (Int.tmod a m) y (x - Int.tdiv a m * y)
    else some x

/-- `modInverse(a, m)`: extended Euclidean algorithm, as in the source:
early-returns `0` when `m = 1`, runs the loop from `x = 1, y = 0`, and
re-adds the original modulus when the result is negative. -/
def modInverse (a m : ℤ) : Option ℤ :=
  if m = 1 then some 0
  else (egcdLoop (m.natAbs + 2) a m 1 0).map fun x => if x < 0 then x + m else x

-- ### Polynomial evaluation and share generation

/-- The `(result, powerOfX)` accumulator loop of `evalPoly`. -/
def evalPolyAux (x : ℤ) : List ℤ → ℤ × ℤ → ℤ × ℤ
  | [], st => st
  | c :: rest, st =>
      evalPolyAux x rest
        (Int.tmod (st.1 + c * st.2) PRIME_MODULUS, Int.tmod (st.2 * x) PRIME_MODULUS)

/-- `evalPoly(coeffs, x) = Σ coeffs[i] * x^i (mod PRIME_MODULUS)`,
computed by iteratively updating a running power of `x`. -/
def evalPoly (coeffs : List ℤ) (x : ℤ) : ℤ :=
  (evalPolyAux x coeffs (0, 1)).1

/-- A key share, from `src/types.ts`. -/
structure Share where
  id : ℕ
  data : List Char
  deriving DecidableEq, Repr

/-- `splitSecret(secretHex, n, k)`.  The `k - 1` random coefficients drawn
from `randomBigInt()` are passed explicitly as `randoms` (the caller of the
theorems quantifies over them); the coefficient list is
`[secret, ...randoms]`.  Parsing `"0x" + secretHex` can throw, hence
`Option`. -/
def splitSecret (secretHex : List Char) (n : ℕ) (randoms : List ℤ) :
    Option (List Share) :=
  (parseHex secretHex).map fun (secret : ℕ) =>
    let coeffs : List ℤ := (secret : ℤ) :: randoms
    (List.range' 1 n).map fun i =>
      { id := i
        data := intToHex (i : ℤ) ++ Char.ofNat 45 :: intToHex (evalPoly coeffs (i : ℤ)) }

-- ### Lagrange reconstruction (`reconstructSecret`)

/-- `s.split('-')` on the share text. -/
def splitDash : List Char → List (List Char)
  | [] => [[]]
  | c :: rest =>
    if c = Char.ofNat 45 then [] :: splitDash rest
    else
      match splitDash rest with
      | [] => [[c]]
      | piece :: pieces => (c :: piece) :: pieces

/-- Parse one share into a point: `const [xHex, yHex] = s.data.split('-')`
followed by `BigInt("0x" + ...)` on both pieces.  When the split yields
fewer than two pieces, `yHex` is `undefined` and the `BigInt` conversion
throws, hence `none`. -/
def parseSharePoint (s : Share) : Option (ℤ × ℤ) :=
  match splitDash s.data with
  | xHex :: yHex :: _ => do
    let x ← parseHex xHex
    let y ← parseHex yHex
    pure ((x : ℤ), (y : ℤ))
  | _ => none

/-- The normalized difference `xm - xj` of `reconstructSecret`:
`let diff = (xm - xj) % P; if (diff < 0n) diff += P`. -/
def normDiff (xm xj : ℤ) : ℤ :=
  let diff0 := Int.tmod (xm - xj) PRIME_MODULUS
  if diff0 < 0 then diff0 + PRIME_MODULUS else diff0

/-- The inner `for (m ...)` loop of `reconstructSecret`: accumulates the
`(numerator, denominator)` pair over all points whose index differs from
`j`, reducing after each multiplication and normalizing each difference
`xm - xj` into `[0, P)` before it enters the denominator. -/
def innerNumDen (pts : List (ℕ × (ℤ × ℤ))) (j : ℕ) (xj : ℤ) : ℤ × ℤ :=
  pts.foldl
    (fun nd q =>
      if q.1 = j then nd
      else
        (Int.tmod (nd.1 * q.2.1) PRIME_MODULUS,
         Int.tmod (nd.2 * normDiff q.2.1 xj) PRIME_MODULUS))
    (1, 1)

/-- The outer `for (j ...)` loop of `reconstructSecret`: for each point,
invert the denominator, form the term `yj * numerator * invDenominator`
reduced mod `P`, and fold it into the running secret. -/
def reconLoop (pts : List (ℤ × ℤ)) : Option ℤ :=
  (pts.enum).foldlM
    (fun secret q =>
      let xj := q.2.1
      let yj := q.2.2
      let nd := innerNumDen pts.enum q.1 xj
      (modInverse nd.2 PRIME_MODULUS).map fun inv =>
        Int.tmod (secret + Int.tmod (yj * nd.1 * inv) PRIME_MODULUS) PRIME_MODULUS)
    0

/-- The output padding of `reconstructSecret`:
`if (hex.length % 2 !== 0) hex = '0' + hex`. -/
def padHex (hex : List Char) : List Char :=
  if hex.length % 2 ≠ 0 then Char.ofNat 48 :: hex else hex

/-- `reconstructSecret(shares)`: parse all shares into points, run Lagrange
interpolation at zero, re-add `P` if the accumulated value is negative, and
render as hex left-padded with one `'0'` when the digit count is odd. -/
def reconstructSecret (shares : List Share) : Option (List Char) := do
  let points ← shares.mapM parseSharePoint
  let secret0 ← reconLoop points
  let secret := if secret0 < 0 then secret0 + PRIME_MODULUS else secret0
  pure (padHex (intToHex secret))

-- ### Encoding utilities (`bufferToHex` / `hexToBuffer`, base64) from
-- `src/services/cryptoService.ts`.  Byte buffers are lists of naturals
-- below 256.

/-- `b.toString(16).padStart(2, "0")` for one byte. -/
def byteToHexPair (v : ℕ) : List Char :=
  let h := natToHex v
  List.replicate (2 - h.length) (Char.ofNat 48) ++ h

/-- `bufferToHex`: two lowercase hex digits per byte, concatenated. -/
def bufferToHex (buffer : List ℕ) : List Char :=
  (buffer.map byteToHexPair).flatten

/-- `parseInt(two-char-string, 16)` coerced through a `Uint8Array` store:
an invalid first digit yields `NaN`, which the typed-array store coerces
to `0`; a valid first digit with an invalid second parses the one-digit
prefix.  (JS `parseInt` additionally accepts sign/whitespace prefixes;
those never arise from hexadecimal strings and are not modelled.) -/
def parseIntByte (c1 c2 : Char) : ℕ :=
  match hexCharVal c1 with
  | none => 0
  | some v1 =>
    match hexCharVal c2 with
    | none => v1
    | some v2 => 16 * v1 + v2

/-- `hexToBuffer`: reads consecutive digit pairs.  A trailing odd digit is
parsed into the out-of-range slot `bytes[hex.length / 2]` of the
`Uint8Array(hex.length / 2)`, a write that JS silently discards. -/
def hexToBuffer : List Char → List ℕ
  | c1 :: c2 :: rest => parseIntByte c1 c2 :: hexToBuffer rest
  | _ => []

/-- The base64 alphabet character for a 6-bit value: `A`-`Z`, `a`-`z`,
`0`-`9`, `+`, `/`. -/
def b64Char (d : ℕ) : Char :=
  if d < 26 then Char.ofNat (65 + d)
  else if d < 52 then Char.ofNat (97 + (d - 26))
  else if d < 62 then Char.ofNat (48 + (d - 52))
  else if d = 62 then Char.ofNat 43
  else Char.ofNat 47

/-- The 6-bit value of a base64 alphabet character; `none` otherwise. -/
def b64CharVal (c : Char) : Option ℕ :=
  if 65 ≤ c.toNat ∧ c.toNat ≤ 90 then some (c.toNat - 65)
  else if 97 ≤ c.toNat ∧ c.toNat ≤ 122 then some (c.toNat - 97 + 26)
  else if 48 ≤ c.toNat ∧ c.toNat ≤ 57 then some (c.toNat - 48 + 52)
  else if c.toNat = 43 then some 62
  else if c.toNat = 47 then some 63
  else none

/-- `bufferToBase64`: builds the byte string and calls `window.btoa`,
which emits standard base64 — three bytes become four alphabet
characters; a trailing group of one or two bytes is completed with `=`
padding.  The bit manipulations are written for byte values (`< 256`, the
only values a `Uint8Array` holds; `btoa` throws on larger char codes). -/
def bufferToBase64 : List ℕ → List Char
  | [] => []
  | [a] => [b64Char (a / 4), b64Char (a % 4 * 16), Char.ofNat 61, Char.ofNat 61]
  | [a, b] => [b64Char (a / 4), b64Char (a % 4 * 16 + b / 16),
      b64Char (b % 16 * 4), Char.ofNat 61]
  | a :: b :: c :: rest =>
      b64Char (a / 4) :: b64Char (a % 4 * 16 + b / 16) ::
        b64Char (b % 16 * 4 + c / 64) :: b64Char (c % 64) :: bufferToBase64 rest

/-- Padding removal of forgiving-base64 (`window.atob`, step 2): when the
input length is a multiple of four, up to two trailing `=` are removed. -/
def dropB64Pad (s : List Char) : List Char :=
  if s.length % 4 = 0 then
    match s.reverse with
    | c1 :: c2 :: rest =>
      if c1 = Char.ofNat 61 then
        if c2 = Char.ofNat 61 then rest.reverse
        else (c2 :: rest).reverse
      else s
    | _ => s
  else s

/-- Bit reassembly of forgiving-base64: groups of four 6-bit values give
three bytes; a final group of two or three values gives one or two bytes
(the spare low bits are discarded). -/
def b64DecodeGroups : List ℕ → List ℕ
  | v1 :: v2 :: v3 :: v4 :: rest =>
      (v1 * 4 + v2 / 16) :: (v2 % 16 * 16 + v3 / 4) :: (v3 % 4 * 64 + v4) ::
        b64DecodeGroups rest
  | [v1, v2] => [v1 * 4 + v2 / 16]
  | [v1, v2, v3] => [v1 * 4 + v2 / 16, v2 % 16 * 16 + v3 / 4]
  | _ => []

/-- `base64ToBuffer`: `window.atob` (forgiving-base64 decode) into a byte
list.  A remaining length of `1 (mod 4)` or a character outside the
alphabet is an error.  (Step 1 of forgiving-base64, the removal of ASCII
whitespace, is not modelled: no caller feeds whitespace.) -/
def base64ToBuffer (s : List Char) : Option (List ℕ) :=
  let t := dropB64Pad s
  if t.length % 4 = 1 then none
  else (t.mapM b64CharVal).map b64DecodeGroups

/-- The 6-bit value stream of the base64 encoding, without padding: the
proof-side skeleton of `bufferToBase64`. -/
def b64Vals : List ℕ → List ℕ
  | [] => []
  | [a] => [a / 4, a % 4 * 16]
  | [a, b] => [a / 4, a % 4 * 16 + b / 16, b % 16 * 4]
  | a :: b :: c :: rest =>
      a / 4 :: (a % 4 * 16 + b / 16) :: (b % 16 * 4 + c / 64) :: c % 64 ::
        b64Vals rest

/-- The `=` padding appended by `btoa`, by input length. -/
def b64Pad (len : ℕ) : List Char :=
  if len % 3 = 1 then [Char.ofNat 61, Char.ofNat 61]
  else if len % 3 = 2 then [Char.ofNat 61]
  else []

-- ### Orchestration layer (`src/App.tsx`)

/-- `MAX_SHARES` from `src/types.ts` (`constants`). -/
def MAX_SHARES : ℕ := 10

/-- `MIN_SHARES` from `src/types.ts` (`constants`). -/
def MIN_SHARES : ℕ := 2

/-- `AppConfig` from `src/types.ts`. -/
structure AppConfig where
  totalShares : ℕ
  threshold : ℕ
  deriving DecidableEq, Repr

/-- The invariant `2 ≤ threshold ≤ totalShares ≤ MAX_SHARES`. -/
def ConfigInvariant (c : AppConfig) : Prop :=
  2 ≤ c.threshold ∧ c.threshold ≤ c.totalShares ∧ c.totalShares ≤ MAX_SHARES

instance (c : AppConfig) : Decidable (ConfigInvariant c) := by
  unfold ConfigInvariant; infer_instance

/-- The `onChange` handler of the Total Shares slider:
`const k = Math.min(config.threshold, n); setConfig({ totalShares: n, threshold: k })`.
The slider element carries `min={MIN_SHARES} max={MAX_SHARES}`, so the event
value `n` satisfies `MIN_SHARES ≤ n ≤ MAX_SHARES` (a hypothesis of the
theorems). -/
def onTotalSharesChange (c : AppConfig) (n : ℕ) : AppConfig :=
  { totalShares := n, threshold := min c.threshold n }

/-- The `onChange` handler of the Recovery Threshold slider:
`setConfig(prev => ({ ...prev, threshold: k }))`.  The slider element
carries `min={2} max={config.totalShares}`, so the event value `k`
satisfies `2 ≤ k ≤ totalShares`. -/
def onThresholdChange (c : AppConfig) (k : ℕ) : AppConfig :=
  { totalShares := c.totalShares, threshold := k }

/-- `EncryptedFile` from `src/types.ts`. -/
structure EncryptedFile where
  name : List Char
  type : List Char
  size : ℕ
  data : List Char
  iv : List Char
  hash : List Char
  deriving DecidableEq, Repr

/-- The typed validation outcomes of `processRecovery`, before any
cryptography runs. -/
inductive RecoveryError where
  | noFileStored
  | insufficientShares (provided needed : ℕ)
  deriving DecidableEq, Repr

/-- The recovery-flow state slice of the `App` component. -/
structure RecoveryState where
  encryptedFile : Option EncryptedFile
  recoveryShares : List (List Char)
  recoveredFileUrl : Option (List Char)
  recoveryError : Option RecoveryError
  deriving DecidableEq, Repr

/-- What `processRecovery` decides to do after its validation prefix:
either an early `return` on a validation error, or proceeding into the
`try` block, handing `sharesList` to `reconstructSecret`. -/
inductive RecoveryAction where
  | rejected
  | proceed (sharesList : List Share)
  deriving DecidableEq, Repr

/-- JS `String.prototype.trim`. -/
def strTrim (s : List Char) : List Char :=
  ((s.dropWhile Char.isWhitespace).reverse.dropWhile Char.isWhitespace).reverse

/-- The validation prefix of `processRecovery` (`src/App.tsx`): reject when
no encrypted file is stored; build `sharesList` from the non-blank inputs
(`.filter(s => s.trim() !== "").map(s => ({ id: 0, data: s.trim() }))`);
reject when fewer than `config.threshold` remain.  Only on `proceed` does
the code go on to call `reconstructSecret` and the cipher. -/
def processRecovery (config : AppConfig) (st : RecoveryState) :
    RecoveryState × RecoveryAction :=
  match st.encryptedFile with
  | none => ({ st with recoveryError := some .noFileStored }, .rejected)
  | some _ =>
    let sharesList := (st.recoveryShares.filter fun s => strTrim s ≠ []).map
      fun s => ({ id := 0, data := strTrim s } : Share)
    if sharesList.length < config.threshold then
      let err := RecoveryError.insufficientShares sharesList.length config.threshold
      ({ st with recoveryError := some err }, .rejected)
    else
      ({ st with recoveryError := none }, .proceed sharesList)

-- ### Arithmetic helper lemmas

theorem tmod_neg_left (a b : ℤ) : (-a).tmod b = -(a.tmod b) := by
  rw [Int.tmod_def, Int.tmod_def, Int.neg_tdiv]; ring

theorem tmod_gt_neg (a b : ℤ) (h : 0 < b) : -b < a.tmod b := by
  rcases le_or_lt 0 a with ha | ha
  · have := Int.tmod_nonneg b ha; omega
  · have h2 : (-a).tmod b < b := Int.tmod_lt_of_pos (-a) h
    rw [tmod_neg_left] at h2; omega

theorem tmod_cast_zmod (n : ℕ) (a b : ℤ) (hb : (b : ZMod n) = 0) :
    ((Int.tmod a b : ℤ) : ZMod n) = (a : ZMod n) := by
  have hd : b * Int.tdiv a b + Int.tmod a b = a := Int.tdiv_add_tmod a b
  calc ((Int.tmod a b : ℤ) : ZMod n) = ((b * Int.tdiv a b + Int.tmod a b : ℤ) : ZMod n) := by
        push_cast [hb]; ring
    _ = (a : ZMod n) := by rw [hd]

theorem pmod_cast_zero : ((PRIME_MODULUS : ℤ) : ZMod pModN) = 0 := by
  rw [← pModN_cast, Int.cast_natCast, ZMod.natCast_self]

/-- `Int.tmod _ PRIME_MODULUS` casts transparently into the field. -/
theorem tmodP_cast (a : ℤ) :
    ((Int.tmod a PRIME_MODULUS : ℤ) : ZMod pModN) = (a : ZMod pModN) :=
  tmod_cast_zmod pModN a PRIME_MODULUS pmod_cast_zero

-- ### Hexadecimal round-trip lemmas

theorem hexCharVal_hexDigitChar {d : ℕ} (hd : d < 16) :
    hexCharVal (hexDigitChar d) = some d := by
  have h : ∀ i : Fin 16, hexCharVal (hexDigitChar i.val) = some i.val := by decide
  exact h ⟨d, hd⟩

theorem hexDigitChar_ne_dash {d : ℕ} (hd : d < 16) : hexDigitChar d ≠ Char.ofNat 45 := by
  have h : ∀ i : Fin 16, hexDigitChar i.val ≠ Char.ofNat 45 := by decide
  exact h ⟨d, hd⟩

/-- Every digit rendered by `toString(16)` is a decimal digit or a
lowercase letter `a`-`f`. -/
theorem hexDigitChar_lowercase {d : ℕ} (hd : d < 16) :
    (48 ≤ (hexDigitChar d).toNat ∧ (hexDigitChar d).toNat ≤ 57) ∨
      (97 ≤ (hexDigitChar d).toNat ∧ (hexDigitChar d).toNat ≤ 102) := by
  have h : ∀ i : Fin 16,
      (48 ≤ (hexDigitChar i.val).toNat ∧ (hexDigitChar i.val).toNat ≤ 57) ∨
        (97 ≤ (hexDigitChar i.val).toNat ∧ (hexDigitChar i.val).toNat ≤ 102) := by decide
  exact h ⟨d, hd⟩

theorem natToHexRev_eq_digits : ∀ fuel n, n < 16 ^ fuel →
    natToHexRev fuel n = (Nat.digits 16 n).map hexDigitChar
  | 0, n, h => by
    interval_cases n
    simp [natToHexRev]
  | fuel + 1, n, h => by
    rcases Nat.eq_zero_or_pos n with rfl | hn
    · simp [natToHexRev]
    · rw [natToHexRev, if_neg hn.ne', Nat.digits_def' (by norm_num : 1 < 16) hn,
        List.map_cons, natToHexRev_eq_digits fuel (n / 16)
          (Nat.div_lt_of_lt_mul (by rw [pow_succ] at h; omega))]

/-- `natToHex` in terms of the abstract base-16 digit expansion. -/
theorem natToHex_eq_digits (n : ℕ) :
    natToHex n = if n = 0 then [Char.ofNat 48]
      else ((Nat.digits 16 n).map hexDigitChar).reverse := by
  rcases Nat.eq_zero_or_pos n with rfl | hn
  · rfl
  · rw [natToHex, if_neg hn.ne', if_neg hn.ne', natToHexRev_eq_digits (n + 1) n (by
      calc n < 2 ^ n := Nat.lt_two_pow n
        _ ≤ 16 ^ n := Nat.pow_le_pow_left (by norm_num) n
        _ ≤ 16 ^ (n + 1) := Nat.pow_le_pow_right (by norm_num) (Nat.le_succ n))]

theorem mapM_hexCharVal_map (l : List ℕ) (hl : ∀ d ∈ l, d < 16) :
    (l.map hexDigitChar).mapM hexCharVal = some l := by
  induction l with
  | nil => rfl
  | cons d rest ih =>
    rw [List.map_cons, List.mapM_cons, hexCharVal_hexDigitChar (hl d (by simp)),
      ih fun x hx => hl x (by simp [hx])]
    rfl

theorem foldr_ofDigits (l : List ℕ) :
    l.foldr (fun v a => 16 * a + v) 0 = Nat.ofDigits 16 l := by
  induction l with
  | nil => rfl
  | cons d rest ih => rw [List.foldr_cons, ih, Nat.ofDigits_cons]; ring

/-- Round trip: parsing the lowercase hex rendering of `n` returns `n`. -/
theorem parseHex_natToHex (n : ℕ) : parseHex (natToHex n) = some n := by
  rcases Nat.eq_zero_or_pos n with rfl | hn
  · decide
  · rw [natToHex_eq_digits, if_neg hn.ne', ← List.map_reverse, parseHex,
      mapM_hexCharVal_map _ (fun d hd => Nat.digits_lt_base (by norm_num) (List.mem_reverse.mp hd))]
    have hne : (Nat.digits 16 n).reverse ≠ [] := by
      simp [Nat.digits_ne_nil_iff_ne_zero, hn.ne']
    simp only [Option.some.injEq]
    rw [if_neg (by simpa [List.isEmpty_iff] using hne)]
    rw [List.foldl_reverse, foldr_ofDigits, Nat.ofDigits_digits]

theorem natToHex_ne_nil (n : ℕ) : natToHex n ≠ [] := by
  rw [natToHex_eq_digits]
  rcases Nat.eq_zero_or_pos n with rfl | hn
  · simp
  · simp [Nat.digits_ne_nil_iff_ne_zero, hn.ne']

theorem natToHex_no_dash (n : ℕ) : Char.ofNat 45 ∉ natToHex n := by
  rw [natToHex_eq_digits]
  rcases Nat.eq_zero_or_pos n with rfl | hn
  · decide
  · rw [if_neg hn.ne']
    intro hmem
    rcases List.mem_map.mp (List.mem_reverse.mp hmem) with ⟨d, hd, hEq⟩
    exact hexDigitChar_ne_dash (Nat.digits_lt_base (by norm_num) hd) hEq

/-- A leading `'0'` does not change the parsed value of a nonempty hex
string that parses. -/
theorem parseHex_cons_zero (s : List Char) (v : ℕ) (h : parseHex s = some v) :
    parseHex (Char.ofNat 48 :: s) = some v := by
  unfold parseHex at h ⊢
  rcases hm : s.mapM hexCharVal with _ | ds
  · simp only [hm] at h
    cases h
  · simp only [hm] at h
    rw [List.mapM_cons, show hexCharVal (Char.ofNat 48) = some 0 from rfl, hm]
    by_cases hds : ds.isEmpty
    · rw [if_pos hds] at h; exact absurd h (by simp)
    · rw [if_neg hds] at h
      simpa using h

-- ### Share-text lemmas

theorem splitDash_no_dash : ∀ {l : List Char}, Char.ofNat 45 ∉ l → splitDash l = [l]
  | [], _ => rfl
  | c :: rest, h => by
    have hc : ¬(c = Char.ofNat 45) := fun hc => h (by simp [hc])
    have ih := splitDash_no_dash (fun hm => h (List.mem_cons_of_mem _ hm))
    simp [splitDash, if_neg hc, ih]

theorem splitDash_append : ∀ (a : List Char) (b : List Char), Char.ofNat 45 ∉ a →
    splitDash (a ++ Char.ofNat 45 :: b) = a :: splitDash b
  | [], b, _ => by simp [splitDash]
  | c :: a', b, ha => by
    have hc : ¬(c = Char.ofNat 45) := fun hc => ha (by simp [hc])
    have ih := splitDash_append a' b (fun hm => ha (List.mem_cons_of_mem _ hm))
    simp [splitDash, if_neg hc, ih]

theorem intToHex_ofNat (n : ℕ) : intToHex (n : ℤ) = natToHex n := by
  simp [intToHex]

/-- A share whose data is two hex renderings joined by the dash parses back
to the rendered point. -/
theorem parseSharePoint_mk (i x y : ℕ) :
    parseSharePoint ⟨i, natToHex x ++ Char.ofNat 45 :: natToHex y⟩ = some ((x : ℤ), (y : ℤ)) := by
  unfold parseSharePoint
  rw [splitDash_append _ _ (natToHex_no_dash x), splitDash_no_dash (natToHex_no_dash y)]
  simp [parseHex_natToHex]

/-- `mapM` fails as soon as one element fails. -/
theorem mapM_eq_none_of_mem {α β : Type} (f : α → Option β) :
    ∀ (l : List α) (a : α), a ∈ l → f a = none → l.mapM f = none
  | [], a, ha, _ => absurd ha (List.not_mem_nil a)
  | b :: rest, a, ha, hfa => by
    rw [List.mapM_cons]
    rcases List.mem_cons.mp ha with rfl | hmem
    · rw [hfa]; rfl
    · rcases hfb : f b with _ | v
      · rfl
      · rw [mapM_eq_none_of_mem f rest a hmem hfa]; rfl

-- ### `evalPoly` lemmas

theorem evalPolyAux_bounds (x : ℤ) (hx : 0 ≤ x) :
    ∀ (coeffs : List ℤ) (st : ℤ × ℤ), (∀ c ∈ coeffs, 0 ≤ c) →
      0 ≤ st.1 → st.1 < PRIME_MODULUS → 0 ≤ st.2 →
      0 ≤ (evalPolyAux x coeffs st).1 ∧ (evalPolyAux x coeffs st).1 < PRIME_MODULUS
  | [], _, _, h1, h2, _ => ⟨h1, h2⟩
  | c :: rest, st, hc, _, _, h3 => by
    rw [evalPolyAux]
    refine evalPolyAux_bounds x hx rest _ (fun d hd => hc d (List.mem_cons_of_mem _ hd)) ?_ ?_ ?_
    · exact Int.tmod_nonneg _
        (add_nonneg (by assumption) (mul_nonneg (hc c (List.mem_cons_self c rest)) h3))
    · exact Int.tmod_lt_of_pos _ pModN_pos
    · exact Int.tmod_nonneg _ (mul_nonneg h3 hx)

/-- `evalPoly` of nonnegative coefficients at a nonnegative point lands in
`[0, P)`. -/
theorem evalPoly_bounds (coeffs : List ℤ) (x : ℤ) (hx : 0 ≤ x)
    (hc : ∀ c ∈ coeffs, 0 ≤ c) :
    0 ≤ evalPoly coeffs x ∧ evalPoly coeffs x < PRIME_MODULUS :=
  evalPolyAux_bounds x hx coeffs (0, 1) hc le_rfl pModN_pos zero_le_one

/-- Horner evaluation in the field, the mathematical meaning of the
`evalPoly` accumulator. -/
def hornerZMod (x : ZMod pModN) : List (ZMod pModN) → ZMod pModN
  | [] => 0
  | c :: rest => c + x * hornerZMod x rest

theorem evalPolyAux_cast (x : ℤ) :
    ∀ (coeffs : List ℤ) (st : ℤ × ℤ),
      (((evalPolyAux x coeffs st).1 : ℤ) : ZMod pModN) =
        (st.1 : ZMod pModN) +
          (st.2 : ZMod pModN) * hornerZMod (x : ZMod pModN)
            (coeffs.map fun c => ((c : ℤ) : ZMod pModN))
  | [], st => by simp [evalPolyAux, hornerZMod]
  | c :: rest, st => by
    rw [evalPolyAux, evalPolyAux_cast x rest]
    simp only [List.map_cons, hornerZMod, tmodP_cast]
    push_cast
    ring

/-- The congruence class of `evalPoly` is Horner evaluation of the cast
coefficients. -/
theorem evalPoly_cast (coeffs : List ℤ) (x : ℤ) :
    ((evalPoly coeffs x : ℤ) : ZMod pModN) =
      hornerZMod (x : ZMod pModN) (coeffs.map fun c => ((c : ℤ) : ZMod pModN)) := by
  rw [evalPoly, evalPolyAux_cast]
  push_cast
  ring

theorem hornerZMod_eq_sum (x : ZMod pModN) :
    ∀ l : List (ZMod pModN),
      hornerZMod x l = ∑ i ∈ Finset.range l.length, l.getD i 0 * x ^ i
  | [] => by simp [hornerZMod]
  | c :: rest => by
    rw [hornerZMod, hornerZMod_eq_sum x rest, List.length_cons, Finset.sum_range_succ']
    simp only [List.getD_cons_succ, List.getD_cons_zero, pow_zero, mul_one, Finset.mul_sum]
    rw [add_comm]
    congr 1
    exact Finset.sum_congr rfl fun i _ => by ring

-- ### Generic fold lemmas for the reconstruction loops

theorem foldl_pair_split {α : Type} (f g : ℤ → α → ℤ) (p : α → Prop) [DecidablePred p] :
    ∀ (l : List α) (a b : ℤ),
      l.foldl (fun nd q => if p q then nd else (f nd.1 q, g nd.2 q)) (a, b) =
        (l.foldl (fun v q => if p q then v else f v q) a,
         l.foldl (fun v q => if p q then v else g v q) b)
  | [], _, _ => rfl
  | q :: rest, a, b => by
    rw [List.foldl_cons, List.foldl_cons, List.foldl_cons]
    by_cases hq : p q
    · rw [if_pos hq, if_pos hq, if_pos hq]
      exact foldl_pair_split f g p rest a b
    · rw [if_neg hq, if_neg hq, if_neg hq]
      exact foldl_pair_split f g p rest (f a q) (g b q)

/-- Folding over an enumerated list while skipping one index is folding
over the list with that index erased. -/
theorem enumFrom_skip_foldl {α β : Type} (f : β → α → β) :
    ∀ (l : List α) (n j : ℕ) (init : β),
      (List.enumFrom n l).foldl (fun v q => if q.1 = n + j then v else f v q.2) init =
        (l.eraseIdx j).foldl f init
  | [], _, _, _ => rfl
  | a :: rest, n, 0, init => by
    rw [List.enumFrom_cons, List.foldl_cons, if_pos (by omega), List.eraseIdx_zero,
      List.tail_cons]
    have hnm : ∀ (l' : List α) (n' t : ℕ) (i : β), t < n' →
        (List.enumFrom n' l').foldl (fun v q => if q.1 = t then v else f v q.2) i =
          l'.foldl f i := by
      intro l'
      induction l' with
      | nil => intro n' t i _; rfl
      | cons c cs ih =>
        intro n' t i ht
        rw [List.enumFrom_cons, List.foldl_cons, if_neg (by omega), List.foldl_cons]
        exact ih (n' + 1) t (f i c) (by omega)
    exact hnm rest (n + 1) n init (by omega)
  | a :: rest, n, j + 1, init => by
    rw [List.enumFrom_cons, List.foldl_cons, if_neg (by omega)]
    have h := enumFrom_skip_foldl f rest (n + 1) j (f init a)
    rw [show n + 1 + j = n + (j + 1) by omega] at h
    rw [h, List.eraseIdx_cons_succ, List.foldl_cons]

/-- The modular product fold stays in `[0, P)` when all factors are
nonnegative. -/
theorem foldl_tmod_bounds {α : Type} (f : α → ℤ) :
    ∀ (l : List α) (c : ℤ), (∀ q ∈ l, 0 ≤ f q) → 0 ≤ c → c < PRIME_MODULUS →
      0 ≤ l.foldl (fun a q => Int.tmod (a * f q) PRIME_MODULUS) c ∧
        l.foldl (fun a q => Int.tmod (a * f q) PRIME_MODULUS) c < PRIME_MODULUS
  | [], c, _, h0, h1 => ⟨h0, h1⟩
  | q :: rest, c, hf, h0, _ => by
    rw [List.foldl_cons]
    exact foldl_tmod_bounds f rest _ (fun r hr => hf r (List.mem_cons_of_mem q hr))
      (Int.tmod_nonneg _ (mul_nonneg h0 (hf q (List.mem_cons_self q rest))))
      (Int.tmod_lt_of_pos _ pModN_pos)

/-- The congruence class of the modular product fold is the product of the
congruence classes. -/
theorem foldl_tmod_cast {α : Type} (f : α → ℤ) :
    ∀ (l : List α) (c : ℤ),
      ((l.foldl (fun a q => Int.tmod (a * f q) PRIME_MODULUS) c : ℤ) : ZMod pModN) =
        (c : ZMod pModN) * (l.map fun q => ((f q : ℤ) : ZMod pModN)).prod
  | [], c => by simp
  | q :: rest, c => by
    rw [List.foldl_cons, foldl_tmod_cast f rest, List.map_cons, List.prod_cons, tmodP_cast]
    push_cast
    ring

-- ### `normDiff` lemmas

theorem normDiff_nonneg (xm xj : ℤ) : 0 ≤ normDiff xm xj := by
  simp only [normDiff]
  have := tmod_gt_neg (xm - xj) PRIME_MODULUS pModN_pos
  split <;> omega

theorem normDiff_lt (xm xj : ℤ) : normDiff xm xj < PRIME_MODULUS := by
  simp only [normDiff]
  have := Int.tmod_lt_of_pos (xm - xj) pModN_pos
  split <;> omega

theorem normDiff_cast (xm xj : ℤ) :
    ((normDiff xm xj : ℤ) : ZMod pModN) = (xm : ZMod pModN) - (xj : ZMod pModN) := by
  simp only [normDiff]
  split
  · push_cast [tmodP_cast, pmod_cast_zero]
    ring
  · rw [tmodP_cast]
    push_cast
    ring

/-- The inner loop over the enumerated points, skipping index `j`, computes
the two modular-product folds over the point list with entry `j` erased. -/
theorem innerNumDen_spec (pts : List (ℤ × ℤ)) (j : ℕ) (xj : ℤ) :
    innerNumDen pts.enum j xj =
      ((pts.eraseIdx j).foldl (fun a r => Int.tmod (a * r.1) PRIME_MODULUS) 1,
       (pts.eraseIdx j).foldl (fun a r => Int.tmod (a * normDiff r.1 xj) PRIME_MODULUS) 1) := by
  have h1 := foldl_pair_split
    (fun (a : ℤ) (q : ℕ × (ℤ × ℤ)) => Int.tmod (a * q.2.1) PRIME_MODULUS)
    (fun (a : ℤ) (q : ℕ × (ℤ × ℤ)) => Int.tmod (a * normDiff q.2.1 xj) PRIME_MODULUS)
    (fun q => q.1 = j) pts.enum 1 1
  have h2 := enumFrom_skip_foldl
    (fun (a : ℤ) (r : ℤ × ℤ) => Int.tmod (a * r.1) PRIME_MODULUS) pts 0 j 1
  have h3 := enumFrom_skip_foldl
    (fun (a : ℤ) (r : ℤ × ℤ) => Int.tmod (a * normDiff r.1 xj) PRIME_MODULUS) pts 0 j 1
  simp only [Nat.zero_add] at h2 h3
  exact h1.trans (Prod.ext h2 h3)

-- ### Correctness of `modInverse`

theorem gcd_tmod_step (a m : ℤ) (ha : 0 < a) (hm : 0 < m) :
    Int.gcd m (Int.tmod a m) = Int.gcd a m := by
  rw [Int.tmod_eq_emod ha.le hm.le]
  obtain ⟨A, rfl⟩ : ∃ A : ℕ, a = (A : ℤ) := ⟨a.toNat, (Int.toNat_of_nonneg ha.le).symm⟩
  obtain ⟨M, rfl⟩ : ∃ M : ℕ, m = (M : ℤ) := ⟨m.toNat, (Int.toNat_of_nonneg hm.le).symm⟩
  rw [show ((A : ℤ) % (M : ℤ)) = ((A % M : ℕ) : ℤ) from (Int.ofNat_mod_ofNat A M).symm]
  simp only [Int.gcd_natCast_natCast]
  rw [Nat.gcd_comm M (A % M), ← Nat.gcd_rec, Nat.gcd_comm]

/-- Invariant of the extended-Euclid loop: if `x·A ≡ a` and `y·A ≡ m`
(in the field), `gcd(a, m) = 1`, `0 < a`, `0 ≤ m`, and the fuel dominates
`|m|`, then the loop returns some `r` with `r·A ≡ 1`. -/
theorem egcdLoop_ok (A : ZMod pModN) :
    ∀ (fuel : ℕ) (a m x y : ℤ), 0 < a → 0 ≤ m → m.natAbs < fuel → Int.gcd a m = 1 →
      ((x : ℤ) : ZMod pModN) * A = ((a : ℤ) : ZMod pModN) →
      ((y : ℤ) : ZMod pModN) * A = ((m : ℤ) : ZMod pModN) →
      ∃ r, egcdLoop fuel a m x y = some r ∧ ((r : ℤ) : ZMod pModN) * A = 1
  | 0, a, m, x, y, _, _, hf, _, _, _ => absurd hf (by omega)
  | fuel + 1, a, m, x, y, ha, hm, hf, hg, hx, hy => by
    rw [egcdLoop]
    by_cases h1 : 1 < a
    · rw [if_pos h1]
      have hm0 : m ≠ 0 := by
        rintro rfl
        rw [Int.gcd_zero_right] at hg
        omega
      have hmpos : 0 < m := lt_of_le_of_ne hm (Ne.symm hm0)
      rw [if_neg hm0]
      refine egcdLoop_ok A fuel m (Int.tmod a m) y (x - Int.tdiv a m * y) hmpos
        (Int.tmod_nonneg _ ha.le) ?_ ?_ hy ?_
      · have hlt : Int.tmod a m < m := Int.tmod_lt_of_pos a hmpos
        have hge : 0 ≤ Int.tmod a m := Int.tmod_nonneg _ ha.le
        omega
      · rw [gcd_tmod_step a m ha hmpos]
        exact hg
      · have htd : Int.tmod a m = a - m * Int.tdiv a m := by
          have := Int.tdiv_add_tmod a m
          omega
        rw [htd]
        push_cast
        rw [sub_mul, hx, mul_assoc, hy]
        ring
    · rw [if_neg h1]
      have ha1 : a = 1 := by omega
      refine ⟨x, rfl, ?_⟩
      rw [hx, ha1]
      simp

theorem pModN_natAbs : PRIME_MODULUS.natAbs = pModN := by
  rw [← pModN_cast, Int.natAbs_ofNat]

/-- For `0 < a < P`, `modInverse(a, P)` succeeds and returns a
representative of the field inverse of `a`. -/
theorem modInverse_inverse (a : ℤ) (ha : 0 < a) (haP : a < PRIME_MODULUS) :
    ∃ r, modInverse a PRIME_MODULUS = some r ∧
      ((r : ℤ) : ZMod pModN) * ((a : ℤ) : ZMod pModN) = 1 := by
  have hP1 : PRIME_MODULUS ≠ 1 := by norm_num [PRIME_MODULUS]
  have hanat : a.natAbs < pModN := by
    have := pModN_natAbs
    omega
  have hg : Int.gcd a PRIME_MODULUS = 1 := by
    rw [Int.gcd, pModN_natAbs]
    refine Nat.Coprime.symm ((Nat.Prime.coprime_iff_not_dvd pModN_prime).mpr fun hdvd => ?_)
    have := Nat.le_of_dvd (by omega) hdvd
    omega
  obtain ⟨r, hr, hinv⟩ := egcdLoop_ok ((a : ℤ) : ZMod pModN) (PRIME_MODULUS.natAbs + 2)
    a PRIME_MODULUS 1 0 ha pModN_pos.le (by omega) hg (by simp) (by simp [pmod_cast_zero])
  refine ⟨if r < 0 then r + PRIME_MODULUS else r, ?_, ?_⟩
  · unfold modInverse
    rw [if_neg hP1, hr]
    rfl
  · split
    · push_cast [pmod_cast_zero]
      rw [add_zero]
      exact_mod_cast hinv
    · exact hinv

/-- `modInverse(a, P)` always succeeds on inputs from `[0, P)`; at `a = 0`
it silently returns `1` (no iteration runs and the initial `x = 1` is
returned). -/
theorem modInverse_total (a : ℤ) (h0 : 0 ≤ a) (haP : a < PRIME_MODULUS) :
    ∃ r, modInverse a PRIME_MODULUS = some r := by
  rcases eq_or_lt_of_le h0 with rfl | hpos
  · refine ⟨1, ?_⟩
    unfold modInverse
    rw [if_neg (by norm_num [PRIME_MODULUS] : PRIME_MODULUS ≠ 1)]
    rw [show PRIME_MODULUS.natAbs + 2 = (PRIME_MODULUS.natAbs + 1) + 1 from rfl, egcdLoop]
    norm_num
  · exact (modInverse_inverse a hpos haP).imp fun r hr => hr.1

-- ### The reconstruction loop as a sum of Lagrange terms

/-- The value the body of the outer loop adds (before the modular fold)
for a point `p`, given the list of the other points:
`(yj * numerator * invDenominator) % P`. -/
def lagTermInt (p : ℤ × ℤ) (others : List (ℤ × ℤ)) : ℤ :=
  Int.tmod (p.2 * (others.foldl (fun a r => Int.tmod (a * r.1) PRIME_MODULUS) 1) *
    ((modInverse (others.foldl (fun a r => Int.tmod (a * normDiff r.1 p.1) PRIME_MODULUS) 1)
      PRIME_MODULUS).getD 0)) PRIME_MODULUS

theorem foldlM_eq_some {α β : Type} (step : β → α → Option β) (g : β → α → β) :
    ∀ (l : List α) (s : β), (∀ (s' : β) (a : α), a ∈ l → step s' a = some (g s' a)) →
      l.foldlM step s = some (l.foldl g s)
  | [], _, _ => rfl
  | a :: rest, s, h => by
    rw [List.foldlM_cons, h s a (List.mem_cons_self a rest)]
    simp only [Option.bind_eq_bind, Option.some_bind]
    exact foldlM_eq_some step g rest (g s a) fun s' b hb => h s' b (List.mem_cons_of_mem a hb)

/-- The outer loop always succeeds (the modular inverse is total on
`[0, P)`), and computes the iterated modular fold of the Lagrange terms. -/
theorem reconLoop_some (pts : List (ℤ × ℤ)) :
    reconLoop pts = some (pts.enum.foldl
      (fun s q => Int.tmod (s + lagTermInt q.2 (pts.eraseIdx q.1)) PRIME_MODULUS) 0) := by
  unfold reconLoop
  apply foldlM_eq_some
  intro s q _
  obtain ⟨hd0, hdP⟩ := foldl_tmod_bounds (fun r => normDiff r.1 q.2.1)
    (pts.eraseIdx q.1) 1 (fun r _ => normDiff_nonneg _ _) zero_le_one one_lt_pModN
  obtain ⟨r, hr⟩ := modInverse_total _ hd0 hdP
  simp only [innerNumDen_spec, lagTermInt, hr, Option.map_some', Option.getD_some]

theorem foldl_tmod_add_bounds {α : Type} (T : α → ℤ) :
    ∀ (l : List α) (s : ℤ), -PRIME_MODULUS < s → s < PRIME_MODULUS →
      -PRIME_MODULUS < l.foldl (fun v q => Int.tmod (v + T q) PRIME_MODULUS) s ∧
        l.foldl (fun v q => Int.tmod (v + T q) PRIME_MODULUS) s < PRIME_MODULUS
  | [], s, h0, h1 => ⟨h0, h1⟩
  | q :: rest, s, _, _ => by
    rw [List.foldl_cons]
    exact foldl_tmod_add_bounds T rest _ (tmod_gt_neg _ _ pModN_pos)
      (Int.tmod_lt_of_pos _ pModN_pos)

theorem foldl_tmod_add_cast {α : Type} (T : α → ℤ) :
    ∀ (l : List α) (s : ℤ),
      ((l.foldl (fun v q => Int.tmod (v + T q) PRIME_MODULUS) s : ℤ) : ZMod pModN) =
        (s : ZMod pModN) + (l.map fun q => ((T q : ℤ) : ZMod pModN)).sum
  | [], s => by simp
  | q :: rest, s => by
    rw [List.foldl_cons, foldl_tmod_add_cast T rest, List.map_cons, List.sum_cons, tmodP_cast]
    push_cast
    ring

theorem list_range_map_sum {M : Type} [AddCommMonoid M] (f : ℕ → M) :
    ∀ n, ((List.range n).map f).sum = ∑ i ∈ Finset.range n, f i
  | 0 => by simp
  | n + 1 => by
    rw [List.range_succ, List.map_append, List.sum_append, Finset.sum_range_succ,
      list_range_map_sum f n]
    simp

/-- Full characterization of the outer loop: it succeeds, the result lies
in `(-P, P)`, and its congruence class is the sum of the Lagrange terms. -/
theorem reconLoop_spec (pts : List (ℤ × ℤ)) :
    ∃ v : ℤ, reconLoop pts = some v ∧ -PRIME_MODULUS < v ∧ v < PRIME_MODULUS ∧
      ((v : ℤ) : ZMod pModN) =
        ∑ j ∈ Finset.range pts.length,
          ((lagTermInt (pts.getD j (0, 0)) (pts.eraseIdx j) : ℤ) : ZMod pModN) := by
  refine ⟨_, reconLoop_some pts, ?_, ?_, ?_⟩
  · exact (foldl_tmod_add_bounds _ pts.enum 0 (by have := pModN_pos; omega) pModN_pos).1
  · exact (foldl_tmod_add_bounds _ pts.enum 0 (by have := pModN_pos; omega) pModN_pos).2
  · rw [foldl_tmod_add_cast]
    push_cast
    rw [zero_add]
    have hmap : pts.enum.map (fun q => ((lagTermInt q.2 (pts.eraseIdx q.1) : ℤ) : ZMod pModN)) =
        pts.enum.map (fun q =>
          ((lagTermInt (pts.getD q.1 (0, 0)) (pts.eraseIdx q.1) : ℤ) : ZMod pModN)) := by
      apply List.map_congr_left
      intro q hq
      have hget : pts[q.1]? = some q.2 := List.mem_enum_iff_getElem?.mp hq
      rw [List.getD_eq_getElem?_getD, hget]
      rfl
    rw [hmap, show (fun q : ℕ × (ℤ × ℤ) =>
        ((lagTermInt (pts.getD q.1 (0, 0)) (pts.eraseIdx q.1) : ℤ) : ZMod pModN)) =
      (fun j : ℕ => ((lagTermInt (pts.getD j (0, 0)) (pts.eraseIdx j) : ℤ) : ZMod pModN)) ∘
        Prod.fst from rfl, ← List.map_map, List.enum_map_fst, list_range_map_sum]

-- ### `reconstructSecret` output characterization

theorem padHex_even_length (h : List Char) : Even (padHex h).length := by
  unfold padHex
  rcases Nat.even_or_odd h.length with he | ho
  · rw [if_neg (by rw [Nat.even_iff] at he; omega)]
    exact he
  · rw [if_pos (by rw [Nat.odd_iff] at ho; omega), List.length_cons]
    rw [Nat.odd_iff] at ho
    rw [Nat.even_iff]
    omega

theorem parseHex_padHex (h : List Char) (v : ℕ) (hp : parseHex h = some v) :
    parseHex (padHex h) = some v := by
  unfold padHex
  split
  · exact parseHex_cons_zero h v hp
  · exact hp

/-- `reconstructSecret` on parseable shares: it succeeds, returns the
padded hex rendering of a value `v ∈ [0, P)`, and `v` is congruent to the
sum of the Lagrange terms of the parsed points. -/
theorem reconstructSecret_spec (shares : List Share) (pts : List (ℤ × ℤ))
    (hparse : shares.mapM parseSharePoint = some pts) :
    ∃ v : ℕ, (v : ℤ) < PRIME_MODULUS ∧
      reconstructSecret shares = some (padHex (natToHex v)) ∧
      parseHex (padHex (natToHex v)) = some v ∧
      ((v : ℤ) : ZMod pModN) =
        ∑ j ∈ Finset.range pts.length,
          ((lagTermInt (pts.getD j (0, 0)) (pts.eraseIdx j) : ℤ) : ZMod pModN) := by
  obtain ⟨v0, hv0, hlo, hhi, hcast⟩ := reconLoop_spec pts
  set w : ℤ := if v0 < 0 then v0 + PRIME_MODULUS else v0 with hw
  have hw0 : 0 ≤ w := by rw [hw]; split <;> omega
  have hwP : w < PRIME_MODULUS := by rw [hw]; split <;> omega
  have hwcast : ((w : ℤ) : ZMod pModN) = ((v0 : ℤ) : ZMod pModN) := by
    rw [hw]
    split
    · push_cast [pmod_cast_zero]; ring
    · rfl
  refine ⟨w.toNat, ?_, ?_, parseHex_padHex _ _ (parseHex_natToHex w.toNat), ?_⟩
  · rw [Int.toNat_of_nonneg hw0]; exact hwP
  · show (shares.mapM parseSharePoint).bind _ = _
    rw [hparse, Option.some_bind]
    simp only [hv0, Option.bind_eq_bind, Option.some_bind]
    rw [← hw]
    have hih : intToHex w = natToHex w.toNat := by
      unfold intToHex
      rw [if_neg (by omega)]
    rw [hih]
    rfl
  · rw [Int.toNat_of_nonneg hw0, hwcast, hcast]

-- ### The Lagrange term as a field expression

theorem list_prod_inv (l : List (ZMod pModN)) : (l.map fun z => z⁻¹).prod = l.prod⁻¹ := by
  induction l with
  | nil => simp
  | cons a rest ih => rw [List.map_cons, List.prod_cons, List.prod_cons, mul_inv, ih]

/-- Under a nonzero denominator product, the Lagrange term computed by the
loops equals the textbook field expression
`y · (Π xm) · (Π (xm - xj))⁻¹`. -/
theorem lagTermInt_cast (p : ℤ × ℤ) (others : List (ℤ × ℤ))
    (hden : (others.map fun r =>
        ((r.1 : ℤ) : ZMod pModN) - ((p.1 : ℤ) : ZMod pModN)).prod ≠ 0) :
    ((lagTermInt p others : ℤ) : ZMod pModN) =
      ((p.2 : ℤ) : ZMod pModN) * (others.map fun r => ((r.1 : ℤ) : ZMod pModN)).prod *
        ((others.map fun r =>
          ((r.1 : ℤ) : ZMod pModN) - ((p.1 : ℤ) : ZMod pModN)).prod)⁻¹ := by
  simp only [lagTermInt]
  set den := others.foldl (fun a r => Int.tmod (a * normDiff r.1 p.1) PRIME_MODULUS) 1 with hdef
  obtain ⟨h0, hP⟩ := foldl_tmod_bounds (fun r => normDiff r.1 p.1)
    others 1 (fun r _ => normDiff_nonneg _ _) zero_le_one one_lt_pModN
  have hdcast : ((den : ℤ) : ZMod pModN) =
      (others.map fun r => ((r.1 : ℤ) : ZMod pModN) - ((p.1 : ℤ) : ZMod pModN)).prod := by
    rw [hdef, foldl_tmod_cast]
    simp [normDiff_cast]
  have hdne : den ≠ 0 := by
    intro h
    rw [h] at hdcast
    exact hden (by rw [← hdcast]; simp)
  obtain ⟨r, hr, hinv⟩ := modInverse_inverse den (lt_of_le_of_ne h0 (Ne.symm hdne)) hP
  rw [hr, Option.getD_some, tmodP_cast]
  push_cast
  rw [foldl_tmod_cast]
  simp only [Int.cast_one, one_mul]
  have hrinv : ((r : ℤ) : ZMod pModN) =
      ((others.map fun q =>
        ((q.1 : ℤ) : ZMod pModN) - ((p.1 : ℤ) : ZMod pModN)).prod)⁻¹ := by
    rw [← hdcast]
    exact eq_inv_of_mul_eq_one_left hinv
  rw [hrinv]

-- ### Claim C4: malformed share text fails before arithmetic

/-- C4: for every share list containing a share whose data does not parse
into two hexadecimal integers separated by the dash (e.g. `"zz-11"`),
`reconstructSecret` fails (the parse phase, which runs before any field
arithmetic, throws), and never returns a valid-looking result. -/
theorem malformed_share_fails (shares : List Share) (s : Share) (hs : s ∈ shares)
    (hbad : parseSharePoint s = none) : reconstructSecret shares = none := by
  show (shares.mapM parseSharePoint).bind _ = none
  rw [mapM_eq_none_of_mem parseSharePoint shares s hs hbad]
  rfl

theorem malformed_share_fails_witness :
    parseSharePoint (Share.mk 0 ( "zz-11".toList)) = none ∧
      reconstructSecret [Share.mk 0 ( "zz-11".toList), Share.mk 0 ( "1-2".toList)] = none :=
  ⟨by decide, malformed_share_fails _ (Share.mk 0 ( "zz-11".toList)) (by decide) (by decide)⟩

-- ### Claim C2: duplicate x values do NOT fail (code bug)

/-- C2 (refuting evaluation): on two shares with the same `x = 1`,
`reconstructSecret` does not raise any "malformed or duplicate share"
condition.  The duplicate makes the denominator `0`; `modInverse(0, P)`
never enters its loop and silently returns its initial `x = 1`; the
function returns the normally-formed hex string `"05"` (a garbage secret),
contradicting the specified failure mode. -/
theorem duplicate_shares_silent_result :
    reconstructSecret [Share.mk 0 ( "1-2".toList), Share.mk 0 ( "1-3".toList)] =
        some ( "05".toList) ∧
      modInverse 0 PRIME_MODULUS = some 1 := by
  constructor
  · decide
  · decide

-- ### Claim C5: insufficient shares are rejected before any cryptography

/-- C5: whenever the number of non-blank share inputs is below the
configured threshold, `processRecovery` rejects (it never reaches the
`proceed` action that invokes `reconstructSecret` and the cipher), sets a
validation error, and leaves the stored `EncryptedFile` and the
recovered-file state unchanged. -/
theorem processRecovery_rejects_insufficient (config : AppConfig) (st : RecoveryState)
    (h : (st.recoveryShares.filter fun s => strTrim s ≠ []).length < config.threshold) :
    (∀ sl, (processRecovery config st).2 ≠ RecoveryAction.proceed sl) ∧
      (processRecovery config st).1.recoveryError.isSome = true ∧
      (processRecovery config st).1.encryptedFile = st.encryptedFile ∧
      (processRecovery config st).1.recoveredFileUrl = st.recoveredFileUrl := by
  rcases hef : st.encryptedFile with _ | f
  · simp [processRecovery, hef]
  · have h' : (st.recoveryShares.filter fun s => !decide (strTrim s = [])).length <
        config.threshold := by
      simp only [ne_eq, decide_not] at h
      exact h
    simp only [processRecovery, hef, List.length_map, ne_eq, decide_not]
    rw [if_pos h']
    simp

theorem processRecovery_rejects_insufficient_witness :
    (∀ sl, (processRecovery ⟨5, 3⟩
        ⟨some ⟨[], [], 0, [], [], []⟩, [( " 1-2 ".toList), []], none, none⟩).2 ≠
          RecoveryAction.proceed sl) ∧
      (processRecovery ⟨5, 3⟩
        ⟨some ⟨[], [], 0, [], [], []⟩, [( " 1-2 ".toList), []], none, none⟩).1.recoveryError.isSome
          = true :=
  have h := processRecovery_rejects_insufficient ⟨5, 3⟩
    ⟨some ⟨[], [], 0, [], [], []⟩, [( " 1-2 ".toList), []], none, none⟩ (by decide)
  ⟨h.1, h.2.1⟩

-- ### Claim C8: the configuration invariant is preserved by both sliders

/-- C8: starting from a configuration satisfying
`2 ≤ threshold ≤ totalShares ≤ 10`, the Total Shares handler (with its
slider bounds `MIN_SHARES ≤ n ≤ MAX_SHARES`) preserves the invariant and
clamps the threshold to `n` when it exceeded `n`, and the Threshold
handler (with its slider bounds `2 ≤ k ≤ totalShares`) preserves the
invariant. -/
theorem config_invariant_preserved (c : AppConfig) (hc : ConfigInvariant c) :
    (∀ n, MIN_SHARES ≤ n → n ≤ MAX_SHARES →
      ConfigInvariant (onTotalSharesChange c n) ∧
        (c.threshold > n → (onTotalSharesChange c n).threshold = n)) ∧
      (∀ k, 2 ≤ k → k ≤ c.totalShares → ConfigInvariant (onThresholdChange c k)) := by
  obtain ⟨h1, h2, h3⟩ := hc
  constructor
  · intro n hn1 hn2
    constructor
    · refine ⟨?_, ?_, ?_⟩ <;>
        simp only [onTotalSharesChange, ConfigInvariant, MIN_SHARES, MAX_SHARES] at * <;>
        omega
    · intro hgt
      simp only [onTotalSharesChange]
      omega
  · intro k hk1 hk2
    exact ⟨hk1, hk2, h3⟩

theorem config_invariant_preserved_witness :
    ConfigInvariant (onTotalSharesChange ⟨5, 4⟩ 3) ∧
      (onTotalSharesChange ⟨5, 4⟩ 3).threshold = 3 ∧
      ConfigInvariant (onThresholdChange ⟨5, 4⟩ 2) :=
  have h := config_invariant_preserved ⟨5, 4⟩ (by decide)
  ⟨(h.1 3 (by decide) (by decide)).1, (h.1 3 (by decide) (by decide)).2 (by decide),
    h.2 2 (by decide) (by decide)⟩

-- ### Claim C7: the shape of the generated shares

/-- The unique representative in `[0, P)` of a congruence class determines
the integer: a bridge from the `ZMod` congruence to `emod`. -/
theorem int_eq_emod_of_cast (v w : ℤ) (h0 : 0 ≤ v) (hP : v < PRIME_MODULUS)
    (hc : ((v : ℤ) : ZMod pModN) = ((w : ℤ) : ZMod pModN)) :
    v = w % PRIME_MODULUS := by
  have hmods := (ZMod.intCast_eq_intCast_iff v w pModN).mp hc
  have hPc : ((pModN : ℕ) : ℤ) = PRIME_MODULUS := pModN_cast
  rw [Int.ModEq, hPc] at hmods
  rw [← hmods, Int.emod_eq_of_lt h0 hP]

/-- `evalPoly` computes exactly `Σ coeffs[i] * x^i mod P`, as the canonical
representative in `[0, P)`. -/
theorem evalPoly_eq_emod (coeffs : List ℤ) (x : ℤ) (hx : 0 ≤ x)
    (hc : ∀ c ∈ coeffs, 0 ≤ c) :
    evalPoly coeffs x =
      (∑ i ∈ Finset.range coeffs.length, coeffs.getD i 0 * x ^ i) % PRIME_MODULUS := by
  obtain ⟨h0, hP⟩ := evalPoly_bounds coeffs x hx hc
  refine int_eq_emod_of_cast _ _ h0 hP ?_
  rw [evalPoly_cast, hornerZMod_eq_sum, List.length_map]
  push_cast
  refine Finset.sum_congr rfl fun i hi => ?_
  rw [List.getD_eq_getElem _ _ (by simpa using Finset.mem_range.mp hi),
    List.getD_eq_getElem _ _ (Finset.mem_range.mp hi), List.getElem_map]

/-- C7: `splitSecret` returns exactly `n` shares with ids `1..n` in order;
share `x` carries the text `hex(x) + "-" + hex(y)` with
`y = (Σ_{i<k} coeffs[i]·x^i) mod P` and `coeffs = [secret, ...randoms]` of
length `k`. -/
theorem splitSecret_shares (secretHex : List Char) (n k : ℕ) (randoms : List ℤ)
    (s : ℕ) (hparse : parseHex secretHex = some s)
    (hk2 : 2 ≤ k) (hlen : randoms.length = k - 1)
    (hrand : ∀ c ∈ randoms, 0 ≤ c) :
    splitSecret secretHex n randoms =
      some ((List.range' 1 n).map fun x =>
        { id := x
          data := natToHex x ++ Char.ofNat 45 ::
            natToHex (((∑ i ∈ Finset.range k,
              ((s : ℤ) :: randoms).getD i 0 * (x : ℤ) ^ i) % PRIME_MODULUS).toNat) }) := by
  unfold splitSecret
  rw [hparse, Option.map_some']
  congr 1
  apply List.map_congr_left
  intro x hx
  have hxpos : 0 < x := (List.mem_range'_1.mp hx).1
  have hcoe : ∀ c ∈ (s : ℤ) :: randoms, 0 ≤ c := by
    intro c hcmem
    rcases List.mem_cons.mp hcmem with rfl | hmem
    · positivity
    · exact hrand c hmem
  obtain ⟨hy0, hyP⟩ := evalPoly_bounds ((s : ℤ) :: randoms) (x : ℤ) (by positivity) hcoe
  have hxcast : intToHex (x : ℤ) = natToHex x := intToHex_ofNat x
  have hklen : ((s : ℤ) :: randoms).length = k := by
    rw [List.length_cons, hlen]
    omega
  have hycast : intToHex (evalPoly ((s : ℤ) :: randoms) (x : ℤ)) =
      natToHex (((∑ i ∈ Finset.range k,
        ((s : ℤ) :: randoms).getD i 0 * (x : ℤ) ^ i) % PRIME_MODULUS).toNat) := by
    unfold intToHex
    rw [if_neg (by omega)]
    rw [evalPoly_eq_emod ((s : ℤ) :: randoms) (x : ℤ) (by positivity) hcoe, hklen]
  rw [hxcast, hycast]

theorem splitSecret_shares_witness :
    splitSecret ( "1".toList) 2 [1] =
      some ((List.range' 1 2).map fun x =>
        { id := x
          data := natToHex x ++ Char.ofNat 45 ::
            natToHex (((∑ i ∈ Finset.range 2,
              ((1 : ℤ) :: [1]).getD i 0 * (x : ℤ) ^ i) % PRIME_MODULUS).toNat) }) :=
  splitSecret_shares ( "1".toList) 2 2 [1] 1 (by decide) (by decide) (by decide) (by decide)

-- ### Claim C6: the output encodes the Lagrange interpolation value

/-- The textbook Lagrange interpolation value at zero, as stated in the
spec: `L(0) = Σ_j yj · Π_{m≠j} xm · (xm − xj)⁻¹ (mod P)`, with the field
inverse. -/
def lagrangeAtZero (pts : List (ℤ × ℤ)) : ZMod pModN :=
  (pts.enum.map fun q =>
    ((q.2.2 : ℤ) : ZMod pModN) *
      ((pts.eraseIdx q.1).map fun r =>
        ((r.1 : ℤ) : ZMod pModN) *
          (((r.1 : ℤ) : ZMod pModN) - ((q.2.1 : ℤ) : ZMod pModN))⁻¹).prod).sum

/-- `lagrangeAtZero` as a `Finset.range` sum via `getD`. -/
theorem lagrangeAtZero_eq_range (pts : List (ℤ × ℤ)) :
    lagrangeAtZero pts =
      ∑ j ∈ Finset.range pts.length,
        (((pts.getD j (0, 0)).2 : ℤ) : ZMod pModN) *
          ((pts.eraseIdx j).map fun r =>
            ((r.1 : ℤ) : ZMod pModN) *
              (((r.1 : ℤ) : ZMod pModN) - (((pts.getD j (0, 0)).1 : ℤ) : ZMod pModN))⁻¹).prod := by
  unfold lagrangeAtZero
  have hmap : pts.enum.map (fun q =>
      ((q.2.2 : ℤ) : ZMod pModN) *
        ((pts.eraseIdx q.1).map fun r =>
          ((r.1 : ℤ) : ZMod pModN) *
            (((r.1 : ℤ) : ZMod pModN) - ((q.2.1 : ℤ) : ZMod pModN))⁻¹).prod) =
      pts.enum.map (fun q =>
        (((pts.getD q.1 (0, 0)).2 : ℤ) : ZMod pModN) *
          ((pts.eraseIdx q.1).map fun r =>
            ((r.1 : ℤ) : ZMod pModN) *
              (((r.1 : ℤ) : ZMod pModN) - (((pts.getD q.1 (0, 0)).1 : ℤ) : ZMod pModN))⁻¹).prod) := by
    apply List.map_congr_left
    intro q hq
    have hget : pts[q.1]? = some q.2 := List.mem_enum_iff_getElem?.mp hq
    rw [List.getD_eq_getElem?_getD, hget]
    rfl
  rw [hmap, show (fun q : ℕ × (ℤ × ℤ) =>
      (((pts.getD q.1 (0, 0)).2 : ℤ) : ZMod pModN) *
        ((pts.eraseIdx q.1).map fun r =>
          ((r.1 : ℤ) : ZMod pModN) *
            (((r.1 : ℤ) : ZMod pModN) - (((pts.getD q.1 (0, 0)).1 : ℤ) : ZMod pModN))⁻¹).prod) =
    (fun j : ℕ =>
      (((pts.getD j (0, 0)).2 : ℤ) : ZMod pModN) *
        ((pts.eraseIdx j).map fun r =>
          ((r.1 : ℤ) : ZMod pModN) *
            (((r.1 : ℤ) : ZMod pModN) - (((pts.getD j (0, 0)).1 : ℤ) : ZMod pModN))⁻¹).prod) ∘
      Prod.fst from rfl, ← List.map_map, List.enum_map_fst, list_range_map_sum]

/-- Under pairwise-distinct x values (mod P), every erased-denominator
product is nonzero. -/
theorem eraseIdx_den_prod_ne_zero (pts : List (ℤ × ℤ))
    (hdist : pts.Pairwise fun p q => ((p.1 : ℤ) : ZMod pModN) ≠ ((q.1 : ℤ) : ZMod pModN))
    (j : ℕ) (hj : j < pts.length) :
    ((pts.eraseIdx j).map fun r =>
      ((r.1 : ℤ) : ZMod pModN) - (((pts.getD j (0, 0)).1 : ℤ) : ZMod pModN)).prod ≠ 0 := by
  apply List.prod_ne_zero
  intro h0mem
  obtain ⟨r, hrmem, hr0⟩ := List.mem_map.mp h0mem
  obtain ⟨i, hi, hij, hget⟩ := List.mem_eraseIdx_iff_getElem.mp hrmem
  have hpair := List.pairwise_iff_getElem.mp hdist
  have hgd : pts.getD j (0, 0) = pts[j] := List.getD_eq_getElem pts (0, 0) hj
  have hne : ((pts[i].1 : ℤ) : ZMod pModN) ≠ ((pts[j].1 : ℤ) : ZMod pModN) := by
    rcases Nat.lt_or_ge i j with hlt | hge
    · exact hpair i j hi hj hlt
    · exact (hpair j i hj hi (by omega)).symm
  rw [← hget, hgd] at hr0
  exact hne (by rwa [sub_eq_zero] at hr0)

/-- C6: on a parseable share list with pairwise-distinct x values mod P,
`reconstructSecret` returns a hex string of even length (padded with one
`'0'` when the natural rendering has odd length) whose parsed value is the
canonical representative of the Lagrange interpolation value at zero. -/
theorem reconstructSecret_even_hex (shares : List Share) (pts : List (ℤ × ℤ))
    (hparse : shares.mapM parseSharePoint = some pts)
    (hdist : pts.Pairwise fun p q => ((p.1 : ℤ) : ZMod pModN) ≠ ((q.1 : ℤ) : ZMod pModN)) :
    ∃ (hex : List Char) (v : ℕ),
      reconstructSecret shares = some hex ∧
      Even hex.length ∧
      parseHex hex = some v ∧
      (v : ℤ) < PRIME_MODULUS ∧
      ((v : ℤ) : ZMod pModN) = lagrangeAtZero pts := by
  obtain ⟨v, hvP, hrec, hparsev, hcast⟩ := reconstructSecret_spec shares pts hparse
  refine ⟨padHex (natToHex v), v, hrec, padHex_even_length _, hparsev, hvP, ?_⟩
  rw [hcast, lagrangeAtZero_eq_range]
  refine Finset.sum_congr rfl fun j hj => ?_
  have hj' := Finset.mem_range.mp hj
  rw [lagTermInt_cast _ _ (eraseIdx_den_prod_ne_zero pts hdist j hj')]
  rw [List.prod_map_mul, mul_assoc]
  have hip : ((pts.eraseIdx j).map fun r =>
      (((r.1 : ℤ) : ZMod pModN) - (((pts.getD j (0, 0)).1 : ℤ) : ZMod pModN))⁻¹).prod =
      (((pts.eraseIdx j).map fun r =>
        ((r.1 : ℤ) : ZMod pModN) - (((pts.getD j (0, 0)).1 : ℤ) : ZMod pModN)).prod)⁻¹ := by
    rw [← list_prod_inv, List.map_map]
    rfl
  rw [hip]

-- ### Claim C3: order independence of reconstruction

/-- The modular product fold in closed form: the canonical representative
of `c · Π f`. -/
theorem foldl_tmod_eq_emod {α : Type} (f : α → ℤ) (l : List α) (c : ℤ)
    (hf : ∀ q ∈ l, 0 ≤ f q) (h0 : 0 ≤ c) (hP : c < PRIME_MODULUS) :
    l.foldl (fun a q => Int.tmod (a * f q) PRIME_MODULUS) c =
      (c * (l.map f).prod) % PRIME_MODULUS := by
  obtain ⟨hb0, hbP⟩ := foldl_tmod_bounds f l c hf h0 hP
  refine int_eq_emod_of_cast _ _ hb0 hbP ?_
  rw [foldl_tmod_cast]
  push_cast
  rw [List.map_map]
  rfl

/-- The Lagrange term only depends on the multiset of the other points
(when their x values are nonnegative, as parsed points always are). -/
theorem lagTermInt_perm (p : ℤ × ℤ) {o₁ o₂ : List (ℤ × ℤ)} (h : o₁.Perm o₂)
    (hx : ∀ r ∈ o₁, 0 ≤ r.1) :
    lagTermInt p o₁ = lagTermInt p o₂ := by
  unfold lagTermInt
  rw [foldl_tmod_eq_emod (fun r => r.1) o₁ 1 hx zero_le_one one_lt_pModN,
    foldl_tmod_eq_emod (fun r => r.1) o₂ 1 (fun r hr => hx r (h.mem_iff.mpr hr))
      zero_le_one one_lt_pModN,
    foldl_tmod_eq_emod (fun r => normDiff r.1 p.1) o₁ 1 (fun r _ => normDiff_nonneg _ _)
      zero_le_one one_lt_pModN,
    foldl_tmod_eq_emod (fun r => normDiff r.1 p.1) o₂ 1 (fun r _ => normDiff_nonneg _ _)
      zero_le_one one_lt_pModN,
    (h.map (fun r => r.1)).prod_eq, (h.map (fun r => normDiff r.1 p.1)).prod_eq]

/-- `mapM` over a permutation: both fail, or both succeed with permuted
results. -/
theorem mapM_perm {α β : Type} (f : α → Option β) :
    ∀ {l₁ l₂ : List α}, l₁.Perm l₂ →
      (l₁.mapM f = none ∧ l₂.mapM f = none) ∨
        ∃ r₁ r₂, l₁.mapM f = some r₁ ∧ l₂.mapM f = some r₂ ∧ r₁.Perm r₂ := by
  intro l₁ l₂ h
  induction h with
  | nil => exact Or.inr ⟨[], [], rfl, rfl, List.Perm.nil⟩
  | cons x hsub ih =>
    rcases hfx : f x with _ | v
    · exact Or.inl ⟨by rw [List.mapM_cons, hfx]; rfl, by rw [List.mapM_cons, hfx]; rfl⟩
    · rcases ih with ⟨h1, h2⟩ | ⟨r₁, r₂, h1, h2, hp⟩
      · exact Or.inl ⟨by rw [List.mapM_cons, hfx, h1]; rfl,
          by rw [List.mapM_cons, hfx, h2]; rfl⟩
      · exact Or.inr ⟨v :: r₁, v :: r₂, by rw [List.mapM_cons, hfx, h1]; rfl,
          by rw [List.mapM_cons, hfx, h2]; rfl, hp.cons v⟩
  | swap x y l =>
    rcases hfx : f x with _ | vx <;> rcases hfy : f y with _ | vy <;>
      rcases hml : l.mapM f with _ | vs
    case some.some.some =>
      exact Or.inr ⟨vy :: vx :: vs, vx :: vy :: vs,
        by rw [List.mapM_cons, hfy, List.mapM_cons, hfx, hml]; rfl,
        by rw [List.mapM_cons, hfx, List.mapM_cons, hfy, hml]; rfl,
        List.Perm.swap vx vy vs⟩
    all_goals
      exact Or.inl ⟨by simp only [List.mapM_cons, hfx, hfy, hml, Option.bind_eq_bind,
          Option.none_bind, Option.some_bind],
        by simp only [List.mapM_cons, hfx, hfy, hml, Option.bind_eq_bind,
          Option.none_bind, Option.some_bind]⟩
  | trans h₁ h₂ ih₁ ih₂ =>
    rcases ih₁ with ⟨a1, b1⟩ | ⟨r₁, r₂, e1, e2, p12⟩ <;>
      rcases ih₂ with ⟨a2, b2⟩ | ⟨r₃, r₄, e3, e4, p34⟩
    · exact Or.inl ⟨a1, b2⟩
    · rw [b1] at e3; cases e3
    · rw [a2] at e2; cases e2
    · rw [e2] at e3
      cases e3
      exact Or.inr ⟨r₁, r₄, e1, e4, p12.trans p34⟩

/-- Every element of a successful `mapM` result comes from some input
element. -/
theorem mapM_mem {α β : Type} (f : α → Option β) :
    ∀ (l : List α) (r : List β), l.mapM f = some r → ∀ b ∈ r, ∃ a ∈ l, f a = some b
  | [], r, h => by
    cases h
    intro b hb
    exact absurd hb (List.not_mem_nil b)
  | a :: rest, r, h => by
    rw [List.mapM_cons] at h
    rcases hfa : f a with _ | v
    · rw [hfa] at h; cases h
    · rw [hfa] at h
      rcases hrest : rest.mapM f with _ | vs
      · rw [hrest] at h; cases h
      · rw [hrest] at h
        simp only [Option.bind_eq_bind, Option.some_bind] at h
        cases h
        intro b hb
        rcases List.mem_cons.mp hb with rfl | hmem
        · exact ⟨a, List.mem_cons_self a rest, hfa⟩
        · obtain ⟨a', ha', hfa'⟩ := mapM_mem f rest vs hrest b hmem
          exact ⟨a', List.mem_cons_of_mem a ha', hfa'⟩

/-- Parsed points have nonnegative coordinates (they are parsed naturals). -/
theorem parseSharePoint_nonneg (s : Share) (p : ℤ × ℤ)
    (h : parseSharePoint s = some p) : 0 ≤ p.1 ∧ 0 ≤ p.2 := by
  unfold parseSharePoint at h
  rcases hsd : splitDash s.data with _ | ⟨xh, rest⟩
  · simp only [hsd] at h
    cases h
  · rcases rest with _ | ⟨yh, t⟩
    · simp only [hsd] at h
      cases h
    · simp only [hsd] at h
      rcases hx : parseHex xh with _ | nx
      · simp only [hx, Option.bind_eq_bind, Option.none_bind] at h
        cases h
      · rcases hy : parseHex yh with _ | ny
        · simp only [hx, hy, Option.bind_eq_bind, Option.some_bind, Option.none_bind] at h
          cases h
        · simp only [hx, hy, Option.bind_eq_bind, Option.some_bind, Option.pure_def,
            Option.some.injEq] at h
          cases h
          exact ⟨Int.natCast_nonneg nx, Int.natCast_nonneg ny⟩

/-- Splitting off the head of the outer sum: the head's term plus the tail
sum with the head moved into the prefix of "other" points. -/
theorem sum_terms_cons (p : ℤ × ℤ) (l pre : List (ℤ × ℤ)) :
    (∑ j ∈ Finset.range (p :: l).length,
      ((lagTermInt ((p :: l).getD j (0, 0)) (pre ++ (p :: l).eraseIdx j) : ℤ) : ZMod pModN)) =
      ((lagTermInt p (pre ++ l) : ℤ) : ZMod pModN) +
        ∑ j ∈ Finset.range l.length,
          ((lagTermInt (l.getD j (0, 0)) ((pre ++ [p]) ++ l.eraseIdx j) : ℤ) : ZMod pModN) := by
  rw [List.length_cons, Finset.sum_range_succ', add_comm]
  congr 1
  refine Finset.sum_congr rfl fun j _ => ?_
  rw [List.append_assoc, List.singleton_append]
  simp only [List.getD_cons_succ, List.eraseIdx_cons_succ]

/-- The outer sum of Lagrange terms only depends on the multiset of
points. -/
theorem sumTerms_perm {l₁ l₂ : List (ℤ × ℤ)} (h : l₁.Perm l₂) :
    (∀ r ∈ l₁, 0 ≤ r.1) → ∀ pre : List (ℤ × ℤ), (∀ r ∈ pre, 0 ≤ r.1) →
      (∑ j ∈ Finset.range l₁.length,
        ((lagTermInt (l₁.getD j (0, 0)) (pre ++ l₁.eraseIdx j) : ℤ) : ZMod pModN)) =
      ∑ j ∈ Finset.range l₂.length,
        ((lagTermInt (l₂.getD j (0, 0)) (pre ++ l₂.eraseIdx j) : ℤ) : ZMod pModN) := by
  induction h with
  | nil => intro _ _ _; rfl
  | cons p hsub ih =>
    intro hmem pre hpre
    rename_i t₁ t₂
    rw [sum_terms_cons, sum_terms_cons]
    have hpd : 0 ≤ p.1 := hmem p (List.mem_cons_self p t₁)
    have ht₁ : ∀ r ∈ t₁, 0 ≤ r.1 := fun r hr => hmem r (List.mem_cons_of_mem p hr)
    have hprep : ∀ r ∈ pre ++ [p], 0 ≤ r.1 := by
      intro r hr
      rcases List.mem_append.mp hr with hr | hr
      · exact hpre r hr
      · rw [List.mem_singleton.mp hr]; exact hpd
    rw [ih ht₁ (pre ++ [p]) hprep]
    congr 1
    exact congrArg _ (lagTermInt_perm p (hsub.append_left pre)
      (fun r hr => (List.mem_append.mp hr).elim (hpre r) (ht₁ r)))
  | swap x y l =>
    intro hmem pre hpre
    have hylx : ∀ r ∈ y :: l, 0 ≤ r.1 := by
      intro r hr
      rcases List.mem_cons.mp hr with rfl | hr
      · exact hmem r (List.mem_cons_self _ _)
      · exact hmem r (List.mem_cons_of_mem y (List.mem_cons_of_mem x hr))
    have hl : ∀ r ∈ l, 0 ≤ r.1 := fun r hr => hylx r (List.mem_cons_of_mem y hr)
    have hx0 : 0 ≤ x.1 := hmem x (List.mem_cons_of_mem y (List.mem_cons_self x l))
    have hy0 : 0 ≤ y.1 := hmem y (List.mem_cons_self y (x :: l))
    rw [sum_terms_cons, sum_terms_cons, sum_terms_cons, sum_terms_cons]
    rw [List.append_assoc pre [y] l, List.singleton_append,
      List.append_assoc pre [x] l, List.singleton_append]
    rw [show (∑ j ∈ Finset.range l.length,
        ((lagTermInt (l.getD j (0, 0)) ((pre ++ [y] ++ [x]) ++ l.eraseIdx j) : ℤ)
          : ZMod pModN)) =
      ∑ j ∈ Finset.range l.length,
        ((lagTermInt (l.getD j (0, 0)) ((pre ++ [x] ++ [y]) ++ l.eraseIdx j) : ℤ)
          : ZMod pModN) from Finset.sum_congr rfl fun j _ => by
        refine congrArg _ (lagTermInt_perm _ ?_ ?_)
        · refine List.Perm.append_right (l.eraseIdx j) ?_
          rw [List.append_assoc pre [y] [x], List.append_assoc pre [x] [y]]
          exact List.Perm.append_left pre List.perm_append_comm
        · intro r hr
          rcases List.mem_append.mp hr with hr | hr
          · rcases List.mem_append.mp hr with hr | hr
            · rcases List.mem_append.mp hr with hr | hr
              · exact hpre r hr
              · rw [List.mem_singleton.mp hr]; exact hy0
            · rw [List.mem_singleton.mp hr]; exact hx0
          · exact hl r ((List.eraseIdx_sublist l j).mem hr)]
    ring
  | trans h₁ h₂ ih₁ ih₂ =>
    intro hmem pre hpre
    exact (ih₁ hmem pre hpre).trans
      (ih₂ (fun r hr => hmem r (h₁.mem_iff.mpr hr)) pre hpre)

/-- C3: on share lists with pairwise-distinct x values, reconstruction is
independent of the order in which the shares are supplied. -/
theorem reconstructSecret_perm (shares₁ shares₂ : List Share) (hperm : shares₁.Perm shares₂)
    (pts : List (ℤ × ℤ)) (hparse : shares₁.mapM parseSharePoint = some pts)
    (_hdist : pts.Pairwise fun p q => p.1 ≠ q.1) :
    reconstructSecret shares₁ = reconstructSecret shares₂ := by
  rcases mapM_perm parseSharePoint hperm with ⟨h1, _⟩ | ⟨r₁, r₂, e1, e2, hp⟩
  · rw [hparse] at h1; cases h1
  · rw [hparse] at e1
    cases e1
    have hnn : ∀ r ∈ pts, 0 ≤ r.1 := fun r hr => by
      obtain ⟨a, _, ha⟩ := mapM_mem parseSharePoint shares₁ pts hparse r hr
      exact (parseSharePoint_nonneg a r ha).1
    obtain ⟨v₁, hv₁P, hrec₁, _, hcast₁⟩ := reconstructSecret_spec shares₁ pts hparse
    obtain ⟨v₂, hv₂P, hrec₂, _, hcast₂⟩ := reconstructSecret_spec shares₂ r₂ e2
    have hsum := sumTerms_perm hp hnn [] (by intro r hr; cases hr)
    simp only [List.nil_append] at hsum
    have hv : ((v₁ : ℤ) : ZMod pModN) = ((v₂ : ℤ) : ZMod pModN) := by
      rw [hcast₁, hcast₂, hsum]
    have hv12 : v₁ = v₂ := by
      have h₁ : v₁ < pModN := by
        have := pModN_cast
        omega
      have h₂ : v₂ < pModN := by
        have := pModN_cast
        omega
      have hzv : ((v₁ : ZMod pModN)) = ((v₂ : ZMod pModN)) := by
        push_cast at hv
        exact_mod_cast hv
      calc v₁ = (v₁ : ZMod pModN).val := (ZMod.val_cast_of_lt h₁).symm
        _ = (v₂ : ZMod pModN).val := by rw [hzv]
        _ = v₂ := ZMod.val_cast_of_lt h₂
    rw [hrec₁, hrec₂, hv12]

theorem reconstructSecret_perm_witness :
    reconstructSecret [Share.mk 0 ( "1-2".toList), Share.mk 0 ( "2-3".toList)] =
      reconstructSecret [Share.mk 0 ( "2-3".toList), Share.mk 0 ( "1-2".toList)] :=
  reconstructSecret_perm _ _ (by decide) [((1 : ℤ), (2 : ℤ)), ((2 : ℤ), (3 : ℤ))]
    (by decide) (by decide)

theorem reconstructSecret_even_hex_witness :
    ∃ (hex : List Char) (v : ℕ),
      reconstructSecret [Share.mk 0 ( "1-2".toList), Share.mk 0 ( "2-3".toList)] = some hex ∧
      Even hex.length ∧
      parseHex hex = some v ∧
      (v : ℤ) < PRIME_MODULUS ∧
      ((v : ℤ) : ZMod pModN) = lagrangeAtZero [((1 : ℤ), (2 : ℤ)), ((2 : ℤ), (3 : ℤ))] :=
  reconstructSecret_even_hex _ [((1 : ℤ), (2 : ℤ)), ((2 : ℤ), (3 : ℤ))] (by decide) (by decide)

-- ### Interpolation support: list products over an erased index

theorem list_map_prod_range {α M : Type} [CommMonoid M] (f : α → M) (d : α) :
    ∀ l : List α, (l.map f).prod = ∏ m ∈ Finset.range l.length, f (l.getD m d)
  | [] => by simp
  | a :: rest => by
    rw [List.map_cons, List.prod_cons, List.length_cons, Finset.prod_range_succ',
      list_map_prod_range f d rest]
    simp only [List.getD_cons_succ, List.getD_cons_zero]
    rw [mul_comm]

theorem eraseIdx_map_prod {α M : Type} [CommMonoid M] (f : α → M) (d : α) :
    ∀ (l : List α) (j : ℕ), j < l.length →
      ((l.eraseIdx j).map f).prod =
        ∏ m ∈ (Finset.range l.length).erase j, f (l.getD m d)
  | [], j, hj => absurd hj (by simp)
  | a :: rest, 0, _ => by
    have himg : (Finset.range (a :: rest).length).erase 0 =
        Finset.image Nat.succ (Finset.range rest.length) := by
      ext m
      simp only [List.length_cons, Finset.mem_erase, Finset.mem_range, Finset.mem_image]
      constructor
      · rintro ⟨h0, hm⟩
        exact ⟨m - 1, by omega, by omega⟩
      · rintro ⟨i, hi, rfl⟩
        omega
    rw [show (a :: rest).eraseIdx 0 = rest from rfl, himg,
      Finset.prod_image fun x _ y _ h => Nat.succ_injective h,
      list_map_prod_range f d rest]
    refine Finset.prod_congr rfl fun i _ => ?_
    rw [show Nat.succ i = i + 1 from rfl, List.getD_cons_succ]
  | a :: rest, j + 1, hj => by
    have hj' : j < rest.length := by simpa using hj
    have hins : (Finset.range (a :: rest).length).erase (j + 1) =
        insert 0 (Finset.image Nat.succ ((Finset.range rest.length).erase j)) := by
      ext m
      simp only [List.length_cons, Finset.mem_erase, Finset.mem_range, Finset.mem_insert,
        Finset.mem_image]
      constructor
      · rintro ⟨hne, hm⟩
        rcases Nat.eq_zero_or_pos m with rfl | hpos
        · exact Or.inl rfl
        · exact Or.inr ⟨m - 1, ⟨by omega, by omega⟩, by omega⟩
      · rintro (rfl | ⟨i, ⟨hij, hi⟩, rfl⟩) <;> omega
    rw [show (a :: rest).eraseIdx (j + 1) = a :: rest.eraseIdx j from rfl,
      List.map_cons, List.prod_cons, hins,
      Finset.prod_insert (by simp),
      Finset.prod_image fun x _ y _ h => Nat.succ_injective h,
      eraseIdx_map_prod f d rest j hj']
    rw [show (a :: rest).getD 0 d = a from rfl]
    refine congrArg _ (Finset.prod_congr rfl fun i _ => ?_)
    rw [show Nat.succ i = i + 1 from rfl, List.getD_cons_succ]

-- ### Interpolation support: evaluating the Lagrange basis at zero

theorem basis_eval_zero (s : Finset ℕ) (v : ℕ → ZMod pModN) (j : ℕ) :
    Polynomial.eval 0 (Lagrange.basis s v j) =
      ∏ m ∈ s.erase j, v m * (v m - v j)⁻¹ := by
  rw [Lagrange.basis, Polynomial.eval_prod]
  refine Finset.prod_congr rfl fun m _ => ?_
  rw [Lagrange.basisDivisor, Polynomial.eval_mul, Polynomial.eval_C, Polynomial.eval_sub,
    Polynomial.eval_X, Polynomial.eval_C, zero_sub,
    show v j - v m = -(v m - v j) by ring, inv_neg]
  ring

theorem interp_eval_zero (s : Finset ℕ) (v r : ℕ → ZMod pModN) :
    Polynomial.eval 0 (Lagrange.interpolate s v r) =
      ∑ j ∈ s, r j * Polynomial.eval 0 (Lagrange.basis s v j) := by
  rw [Lagrange.interpolate_apply, Polynomial.eval_finset_sum]
  exact Finset.sum_congr rfl fun j _ => by rw [Polynomial.eval_mul, Polynomial.eval_C]

/-- The reconstruction sum is the evaluation at zero of the Lagrange
interpolant through the parsed points. -/
theorem terms_sum_interp (pts : List (ℤ × ℤ))
    (hdist : pts.Pairwise fun p q => ((p.1 : ℤ) : ZMod pModN) ≠ ((q.1 : ℤ) : ZMod pModN)) :
    (∑ j ∈ Finset.range pts.length,
      ((lagTermInt (pts.getD j (0, 0)) (pts.eraseIdx j) : ℤ) : ZMod pModN)) =
      Polynomial.eval 0 (Lagrange.interpolate (Finset.range pts.length)
        (fun m => (((pts.getD m (0, 0)).1 : ℤ) : ZMod pModN))
        (fun m => (((pts.getD m (0, 0)).2 : ℤ) : ZMod pModN))) := by
  rw [interp_eval_zero]
  refine Finset.sum_congr rfl fun j hj => ?_
  have hj' := Finset.mem_range.mp hj
  rw [lagTermInt_cast _ _ (eraseIdx_den_prod_ne_zero pts hdist j hj'),
    basis_eval_zero,
    eraseIdx_map_prod (fun r : ℤ × ℤ => ((r.1 : ℤ) : ZMod pModN)) ((0 : ℤ), (0 : ℤ)) pts j hj',
    eraseIdx_map_prod (fun r : ℤ × ℤ =>
      ((r.1 : ℤ) : ZMod pModN) - (((pts.getD j (0, 0)).1 : ℤ) : ZMod pModN))
      ((0 : ℤ), (0 : ℤ)) pts j hj',
    Finset.prod_mul_distrib, ← Finset.prod_inv_distrib, mul_assoc]

/-- Pairwise-distinct x values give an injective node map on the index
range. -/
theorem range_injOn_of_pairwise (pts : List (ℤ × ℤ))
    (hdist : pts.Pairwise fun p q => ((p.1 : ℤ) : ZMod pModN) ≠ ((q.1 : ℤ) : ZMod pModN)) :
    Set.InjOn (fun m => (((pts.getD m (0, 0)).1 : ℤ) : ZMod pModN))
      ↑(Finset.range pts.length) := by
  intro i hi j hj hv
  by_contra hne
  rw [Finset.coe_range, Set.mem_Iio] at hi hj
  dsimp only at hv
  have hpair := List.pairwise_iff_getElem.mp hdist
  rcases Nat.lt_or_ge i j with hlt | hge
  · refine hpair i j hi hj hlt ?_
    rwa [List.getD_eq_getElem pts (0, 0) hi, List.getD_eq_getElem pts (0, 0) hj] at hv
  · refine hpair j i hj hi (by omega) ?_
    rw [List.getD_eq_getElem pts (0, 0) hi, List.getD_eq_getElem pts (0, 0) hj] at hv
    exact hv.symm

-- ### The share polynomial over the field

/-- The polynomial `Σ coeffs[i]·X^i` over the field, the mathematical
object whose evaluations `evalPoly` computes (a proof-side object only,
never executed). -/
noncomputable def polyOfCoeffs (coeffs : List ℤ) : Polynomial (ZMod pModN) :=
  ∑ i ∈ Finset.range coeffs.length,
    Polynomial.C ((coeffs.getD i 0 : ℤ) : ZMod pModN) * Polynomial.X ^ i

theorem polyOfCoeffs_degree_lt (coeffs : List ℤ) :
    (polyOfCoeffs coeffs).degree < (coeffs.length : ℕ) := by
  refine lt_of_le_of_lt (Polynomial.degree_sum_le _ _) ?_
  rw [Finset.sup_lt_iff (by
    exact_mod_cast WithBot.bot_lt_coe coeffs.length)]
  intro i hi
  refine lt_of_le_of_lt (Polynomial.degree_C_mul_X_pow_le i _) ?_
  exact_mod_cast Finset.mem_range.mp hi

theorem polyOfCoeffs_eval_cast (coeffs : List ℤ) (x : ℤ) :
    ((evalPoly coeffs x : ℤ) : ZMod pModN) =
      (polyOfCoeffs coeffs).eval ((x : ℤ) : ZMod pModN) := by
  rw [evalPoly_cast, hornerZMod_eq_sum, polyOfCoeffs, Polynomial.eval_finset_sum,
    List.length_map]
  refine Finset.sum_congr rfl fun i hi => ?_
  rw [Polynomial.eval_mul, Polynomial.eval_C, Polynomial.eval_pow, Polynomial.eval_X]
  congr 1
  rw [List.getD_eq_getElem _ _ (by simpa using Finset.mem_range.mp hi),
    List.getD_eq_getElem _ _ (Finset.mem_range.mp hi), List.getElem_map]

theorem polyOfCoeffs_eval_zero (coeffs : List ℤ) (h : coeffs ≠ []) :
    (polyOfCoeffs coeffs).eval 0 = ((coeffs.getD 0 0 : ℤ) : ZMod pModN) := by
  rw [polyOfCoeffs, Polynomial.eval_finset_sum]
  rw [Finset.sum_eq_single 0]
  · rw [Polynomial.eval_mul, Polynomial.eval_C, Polynomial.eval_pow, Polynomial.eval_X]
    norm_num
  · intro i _ hi0
    rw [Polynomial.eval_mul, Polynomial.eval_C, Polynomial.eval_pow, Polynomial.eval_X,
      zero_pow hi0, mul_zero]
  · intro h0
    exact absurd (Finset.mem_range.mpr (List.length_pos.mpr h)) h0

/-- Exactness of the reconstruction sum: when the points lie on the
polynomial of `coeffs` and the number of points equals the number of
coefficients, the sum of Lagrange terms is the constant coefficient. -/
theorem lagrange_terms_sum (pts : List (ℤ × ℤ)) (coeffs : List ℤ)
    (hlen : pts.length = coeffs.length) (hne : pts ≠ [])
    (hdist : pts.Pairwise fun p q => ((p.1 : ℤ) : ZMod pModN) ≠ ((q.1 : ℤ) : ZMod pModN))
    (hy : ∀ r ∈ pts, ((r.2 : ℤ) : ZMod pModN) =
      (polyOfCoeffs coeffs).eval ((r.1 : ℤ) : ZMod pModN)) :
    (∑ j ∈ Finset.range pts.length,
      ((lagTermInt (pts.getD j (0, 0)) (pts.eraseIdx j) : ℤ) : ZMod pModN)) =
      ((coeffs.getD 0 0 : ℤ) : ZMod pModN) := by
  rw [terms_sum_interp pts hdist]
  have hcne : coeffs ≠ [] := by
    intro hc
    rw [hc] at hlen
    exact hne (List.length_eq_zero.mp (by simpa using hlen))
  have hdeg : (polyOfCoeffs coeffs).degree < (Finset.range pts.length).card := by
    rw [Finset.card_range, hlen]
    exact polyOfCoeffs_degree_lt coeffs
  have hvs := range_injOn_of_pairwise pts hdist
  have hval : ∀ i ∈ Finset.range pts.length,
      (((pts.getD i (0, 0)).2 : ℤ) : ZMod pModN) =
        (polyOfCoeffs coeffs).eval (((pts.getD i (0, 0)).1 : ℤ) : ZMod pModN) := by
    intro i hi
    refine hy _ ?_
    rw [List.getD_eq_getElem pts (0, 0) (Finset.mem_range.mp hi)]
    exact List.getElem_mem _
  have hagree : Lagrange.interpolate (Finset.range pts.length)
      (fun m => (((pts.getD m (0, 0)).1 : ℤ) : ZMod pModN))
      (fun m => (((pts.getD m (0, 0)).2 : ℤ) : ZMod pModN)) =
      Lagrange.interpolate (Finset.range pts.length)
        (fun m => (((pts.getD m (0, 0)).1 : ℤ) : ZMod pModN))
        (fun m => (polyOfCoeffs coeffs).eval
          ((fun m => (((pts.getD m (0, 0)).1 : ℤ) : ZMod pModN)) m)) :=
    Lagrange.interpolate_eq_of_values_eq_on _ _ hval
  rw [hagree, ← Lagrange.eq_interpolate hvs hdeg]
  exact polyOfCoeffs_eval_zero coeffs hcne

-- ### Claim C1: round-trip correctness

/-- `mapM` of a total function agrees with `map`. -/
theorem mapM_some_of_forall {α β : Type} (f : α → Option β) (g : α → β) :
    ∀ (l : List α), (∀ a ∈ l, f a = some (g a)) → l.mapM f = some (l.map g)
  | [], _ => rfl
  | a :: rest, h => by
    rw [List.mapM_cons, h a (List.mem_cons_self a rest),
      mapM_some_of_forall f g rest (fun b hb => h b (List.mem_cons_of_mem a hb))]
    rfl

theorem ten_lt_pModN : 10 < pModN := by norm_num [pModN]

theorem two_pow_256_lt_P : (2 : ℤ) ^ 256 < PRIME_MODULUS := by
  norm_num [PRIME_MODULUS]

/-- C1: round-trip correctness.  For every secret `s < 2^256`, every
`2 ≤ k ≤ n ≤ 10`, and every choice of nonnegative random coefficients,
`reconstructSecret` applied to any `k`-element sub-multiset (in any order)
of the shares returned by `splitSecret` yields a hex string that parses
back to exactly `s`. -/
theorem splitSecret_reconstruct_roundtrip
    (secretHex : List Char) (s n k : ℕ) (randoms : List ℤ) (shares sub : List Share)
    (hsec : parseHex secretHex = some s) (hsmall : s < 2 ^ 256)
    (hk2 : 2 ≤ k) (_hkn : k ≤ n) (hn10 : n ≤ 10)
    (hrlen : randoms.length = k - 1) (hrand : ∀ c ∈ randoms, 0 ≤ c)
    (hsplit : splitSecret secretHex n randoms = some shares)
    (hsub : List.Subperm sub shares) (hslen : sub.length = k) :
    ∃ hex : List Char, reconstructSecret sub = some hex ∧ parseHex hex = some s := by
  classical
  set coeffs : List ℤ := (s : ℤ) :: randoms with hcoeffs
  have hcnn : ∀ c ∈ coeffs, 0 ≤ c := by
    intro c hc
    rcases List.mem_cons.mp hc with rfl | hmem
    · positivity
    · exact hrand c hmem
  have hshares : shares = (List.range' 1 n).map (fun i : ℕ =>
      (⟨i, intToHex (i : ℤ) ++ Char.ofNat 45 :: intToHex (evalPoly coeffs (i : ℤ))⟩ : Share)) := by
    unfold splitSecret at hsplit
    rw [hsec] at hsplit
    simp only [Option.map_some', Option.some.injEq] at hsplit
    exact hsplit.symm
  have hmemsub : ∀ a ∈ sub, 1 ≤ a.id ∧ a.id ≤ n ∧
      a.data = intToHex (a.id : ℤ) ++ Char.ofNat 45 :: intToHex (evalPoly coeffs (a.id : ℤ)) := by
    intro a ha
    have hains : a ∈ shares := hsub.subset ha
    rw [hshares] at hains
    obtain ⟨i, hi, rfl⟩ := List.mem_map.mp hains
    obtain ⟨hi1, hi2⟩ := List.mem_range'_1.mp hi
    exact ⟨hi1, (by omega : i ≤ n), rfl⟩
  have hparses : ∀ a ∈ sub, parseSharePoint a =
      some ((a.id : ℤ), evalPoly coeffs (a.id : ℤ)) := by
    intro a ha
    obtain ⟨_, _, hdata⟩ := hmemsub a ha
    obtain ⟨hy0, hyP⟩ := evalPoly_bounds coeffs (a.id : ℤ) (by positivity) hcnn
    have h2 : intToHex (evalPoly coeffs (a.id : ℤ)) =
        natToHex (evalPoly coeffs (a.id : ℤ)).toNat := by
      unfold intToHex
      rw [if_neg (by omega)]
    calc parseSharePoint a
        = parseSharePoint ⟨a.id, a.data⟩ := rfl
      _ = some ((a.id : ℤ), ((evalPoly coeffs (a.id : ℤ)).toNat : ℤ)) := by
          rw [hdata, intToHex_ofNat, h2]
          exact parseSharePoint_mk a.id a.id _
      _ = some ((a.id : ℤ), evalPoly coeffs (a.id : ℤ)) := by
          rw [Int.toNat_of_nonneg hy0]
  have hparse : sub.mapM parseSharePoint =
      some (sub.map fun a => ((a.id : ℤ), evalPoly coeffs (a.id : ℤ))) :=
    mapM_some_of_forall _ _ sub hparses
  set pts : List (ℤ × ℤ) := sub.map (fun a => ((a.id : ℤ), evalPoly coeffs (a.id : ℤ)))
    with hpts
  have hptslen : pts.length = k := by rw [hpts, List.length_map, hslen]
  have hclen : coeffs.length = k := by
    rw [hcoeffs, List.length_cons, hrlen]
    omega
  have hidsne : shares.Pairwise fun a b : Share => a.id ≠ b.id := by
    rw [hshares, List.pairwise_map]
    exact (List.pairwise_lt_range' 1 n).imp fun h => Nat.ne_of_lt h
  have hsubpw : sub.Pairwise fun a b : Share => a.id ≠ b.id := by
    obtain ⟨l, hlp, hls⟩ := hsub
    have hl : l.Pairwise fun a b : Share => a.id ≠ b.id := hidsne.sublist hls
    exact (List.Perm.pairwise_iff (fun hab => Ne.symm hab) hlp).mp hl
  have h10P : 10 < pModN := ten_lt_pModN
  have hid_lt : ∀ a ∈ sub, a.id < pModN := fun a ha => by
    obtain ⟨_, h2, _⟩ := hmemsub a ha
    omega
  have hdist : pts.Pairwise fun p q : ℤ × ℤ =>
      ((p.1 : ℤ) : ZMod pModN) ≠ ((q.1 : ℤ) : ZMod pModN) := by
    rw [hpts, List.pairwise_map]
    refine hsubpw.imp_of_mem ?_
    intro a b ha hb hne hcast
    apply hne
    have h1 : ((a.id : ℕ) : ZMod pModN) = ((b.id : ℕ) : ZMod pModN) := by
      exact_mod_cast hcast
    have h2 := congrArg ZMod.val h1
    rwa [ZMod.val_natCast_of_lt (hid_lt a ha), ZMod.val_natCast_of_lt (hid_lt b hb)] at h2
  have hy : ∀ r ∈ pts, ((r.2 : ℤ) : ZMod pModN) =
      (polyOfCoeffs coeffs).eval ((r.1 : ℤ) : ZMod pModN) := by
    intro r hr
    rw [hpts] at hr
    obtain ⟨a, _, rfl⟩ := List.mem_map.mp hr
    exact polyOfCoeffs_eval_cast coeffs (a.id : ℤ)
  have hne : pts ≠ [] := List.length_pos.mp (by omega)
  obtain ⟨v, hvP, hrec, hphex, hvcast⟩ := reconstructSecret_spec sub pts hparse
  have hsum := lagrange_terms_sum pts coeffs (by rw [hptslen, hclen]) hne hdist hy
  have hg : coeffs.getD 0 0 = (s : ℤ) := by rw [hcoeffs]; rfl
  have hvs : ((v : ℤ) : ZMod pModN) = (((s : ℕ) : ℤ) : ZMod pModN) := by
    rw [hvcast, hsum, hg]
  have hsP : ((s : ℕ) : ℤ) < PRIME_MODULUS := by
    have h1 : ((s : ℕ) : ℤ) < 2 ^ 256 := by exact_mod_cast hsmall
    exact lt_trans h1 two_pow_256_lt_P
  have hveq : (v : ℤ) = ((s : ℕ) : ℤ) := by
    have h1 := int_eq_emod_of_cast (v : ℤ) ((s : ℕ) : ℤ) (by positivity) hvP hvs
    rwa [Int.emod_eq_of_lt (by positivity) hsP] at h1
  have hv : v = s := by exact_mod_cast hveq
  refine ⟨padHex (natToHex v), hrec, ?_⟩
  rw [hphex, hv]

theorem splitSecret_reconstruct_roundtrip_witness :
    ∃ hex : List Char,
      reconstructSecret [Share.mk 1 ( "1-2".toList), Share.mk 2 ( "2-3".toList)] = some hex ∧
      parseHex hex = some 1 :=
  splitSecret_reconstruct_roundtrip ( "1".toList) 1 2 2 [1]
    [Share.mk 1 ( "1-2".toList), Share.mk 2 ( "2-3".toList)]
    [Share.mk 1 ( "1-2".toList), Share.mk 2 ( "2-3".toList)]
    (by decide) (by decide) (by decide) (by decide) (by decide)
    (by decide) (by decide) (by decide) (List.Subperm.refl _) (by decide)

-- ### Claim C9: sub-threshold reconstruction misses the secret

theorem polyOfCoeffs_coeff (coeffs : List ℤ) (j : ℕ) :
    (polyOfCoeffs coeffs).coeff j = ((coeffs.getD j 0 : ℤ) : ZMod pModN) := by
  rw [polyOfCoeffs, Polynomial.finset_sum_coeff]
  by_cases hj : j < coeffs.length
  · rw [Finset.sum_eq_single j]
    · rw [Polynomial.coeff_C_mul, Polynomial.coeff_X_pow, if_pos rfl, mul_one]
    · intro i _ hij
      rw [Polynomial.coeff_C_mul, Polynomial.coeff_X_pow, if_neg (fun h => hij h.symm),
        mul_zero]
    · intro hjn
      exact absurd (Finset.mem_range.mpr hj) hjn
  · rw [Finset.sum_eq_zero, List.getD_eq_default _ _ (le_of_not_lt hj)]
    · simp
    · intro i hi
      rw [Polynomial.coeff_C_mul, Polynomial.coeff_X_pow,
        if_neg (fun h : j = i => hj (lt_of_eq_of_lt h (Finset.mem_range.mp hi))), mul_zero]

/-- One point short: when the points lie on the polynomial of `coeffs` but
there is one fewer point than coefficients, the sum of Lagrange terms is
the constant coefficient minus the top coefficient times the nodal
polynomial evaluated at zero. -/
theorem lagrange_terms_sum_sub (pts : List (ℤ × ℤ)) (coeffs : List ℤ)
    (hlen : pts.length + 1 = coeffs.length)
    (hdist : pts.Pairwise fun p q => ((p.1 : ℤ) : ZMod pModN) ≠ ((q.1 : ℤ) : ZMod pModN))
    (hy : ∀ r ∈ pts, ((r.2 : ℤ) : ZMod pModN) =
      (polyOfCoeffs coeffs).eval ((r.1 : ℤ) : ZMod pModN)) :
    (∑ j ∈ Finset.range pts.length,
      ((lagTermInt (pts.getD j (0, 0)) (pts.eraseIdx j) : ℤ) : ZMod pModN)) =
      ((coeffs.getD 0 0 : ℤ) : ZMod pModN) -
        ((coeffs.getD pts.length 0 : ℤ) : ZMod pModN) *
          ∏ j ∈ Finset.range pts.length,
            (0 - (((pts.getD j (0, 0)).1 : ℤ) : ZMod pModN)) := by
  rw [terms_sum_interp pts hdist]
  have hcne : coeffs ≠ [] := by
    intro hc
    rw [hc] at hlen
    simp at hlen
  have hvs := range_injOn_of_pairwise pts hdist
  have hcard : (Finset.range pts.length).card = pts.length := Finset.card_range _
  have hnd : (Lagrange.nodal (Finset.range pts.length)
      (fun m => (((pts.getD m (0, 0)).1 : ℤ) : ZMod pModN))).natDegree = pts.length := by
    rw [Lagrange.natDegree_nodal, hcard]
  have hdeg : (polyOfCoeffs coeffs -
      Polynomial.C ((coeffs.getD pts.length 0 : ℤ) : ZMod pModN) *
        Lagrange.nodal (Finset.range pts.length)
          (fun m => (((pts.getD m (0, 0)).1 : ℤ) : ZMod pModN))).degree <
      ((Finset.range pts.length).card : ℕ) := by
    rw [hcard]
    refine (Polynomial.degree_lt_iff_coeff_zero _ _).mpr ?_
    intro m hm
    rw [Polynomial.coeff_sub, Polynomial.coeff_C_mul, polyOfCoeffs_coeff]
    rcases eq_or_lt_of_le hm with heq | hlt
    · rw [← heq]
      have h1 : (Lagrange.nodal (Finset.range pts.length)
          (fun m => (((pts.getD m (0, 0)).1 : ℤ) : ZMod pModN))).coeff
          (Lagrange.nodal (Finset.range pts.length)
            (fun m => (((pts.getD m (0, 0)).1 : ℤ) : ZMod pModN))).natDegree = 1 :=
        Polynomial.Monic.coeff_natDegree Lagrange.nodal_monic
      rw [hnd] at h1
      rw [h1, mul_one, sub_self]
    · have h1 : (Lagrange.nodal (Finset.range pts.length)
          (fun m => (((pts.getD m (0, 0)).1 : ℤ) : ZMod pModN))).coeff m = 0 :=
        Polynomial.coeff_eq_zero_of_natDegree_lt (lt_of_eq_of_lt hnd hlt)
      rw [h1, mul_zero, List.getD_eq_default _ _ (by omega)]
      simp
  have heval : ∀ i ∈ Finset.range pts.length,
      (polyOfCoeffs coeffs -
        Polynomial.C ((coeffs.getD pts.length 0 : ℤ) : ZMod pModN) *
          Lagrange.nodal (Finset.range pts.length)
            (fun m => (((pts.getD m (0, 0)).1 : ℤ) : ZMod pModN))).eval
        ((fun m => (((pts.getD m (0, 0)).1 : ℤ) : ZMod pModN)) i) =
      (fun m => (((pts.getD m (0, 0)).2 : ℤ) : ZMod pModN)) i := by
    intro i hi
    rw [Polynomial.eval_sub, Polynomial.eval_mul, Polynomial.eval_C, Lagrange.eval_nodal]
    dsimp only
    rw [Finset.prod_eq_zero hi (sub_self ((((pts.getD i (0, 0)).1 : ℤ) : ZMod pModN))),
      mul_zero, sub_zero]
    refine (hy _ ?_).symm
    rw [List.getD_eq_getElem pts (0, 0) (Finset.mem_range.mp hi)]
    exact List.getElem_mem _
  have heq := Lagrange.eq_interpolate_of_eval_eq _ hvs hdeg heval
  rw [← heq, Polynomial.eval_sub, Polynomial.eval_mul, Polynomial.eval_C,
    Lagrange.eval_nodal, polyOfCoeffs_eval_zero coeffs hcne]

/-- C9: sub-threshold reconstruction misses the secret.  Running
`reconstructSecret` on a `(k-1)`-element sub-multiset of the shares
produces a well-formed value `v`, and `v` equals the secret exactly when
the top random coefficient is divisible by the prime modulus: for all but
a `1/P` fraction of the random coefficient choices, a sub-threshold share
set reconstructs to a value different from the secret. -/
theorem subthreshold_reconstruction_off
    (secretHex : List Char) (s n k : ℕ) (randoms : List ℤ) (shares sub : List Share)
    (hsec : parseHex secretHex = some s) (hsmall : s < 2 ^ 256)
    (hk2 : 2 ≤ k) (_hkn : k ≤ n) (hn10 : n ≤ 10)
    (hrlen : randoms.length = k - 1) (hrand : ∀ c ∈ randoms, 0 ≤ c)
    (hsplit : splitSecret secretHex n randoms = some shares)
    (hsub : List.Subperm sub shares) (hslen : sub.length = k - 1) :
    ∃ (hex : List Char) (v : ℕ),
      reconstructSecret sub = some hex ∧ parseHex hex = some v ∧
      (v = s ↔ ((randoms.getD (k - 2) 0 : ℤ) : ZMod pModN) = 0) := by
  classical
  set coeffs : List ℤ := (s : ℤ) :: randoms with hcoeffs
  have hcnn : ∀ c ∈ coeffs, 0 ≤ c := by
    intro c hc
    rcases List.mem_cons.mp hc with rfl | hmem
    · positivity
    · exact hrand c hmem
  have hshares : shares = (List.range' 1 n).map (fun i : ℕ =>
      (⟨i, intToHex (i : ℤ) ++ Char.ofNat 45 :: intToHex (evalPoly coeffs (i : ℤ))⟩ : Share)) := by
    unfold splitSecret at hsplit
    rw [hsec] at hsplit
    simp only [Option.map_some', Option.some.injEq] at hsplit
    exact hsplit.symm
  have hmemsub : ∀ a ∈ sub, 1 ≤ a.id ∧ a.id ≤ n ∧
      a.data = intToHex (a.id : ℤ) ++ Char.ofNat 45 :: intToHex (evalPoly coeffs (a.id : ℤ)) := by
    intro a ha
    have hains : a ∈ shares := hsub.subset ha
    rw [hshares] at hains
    obtain ⟨i, hi, rfl⟩ := List.mem_map.mp hains
    obtain ⟨hi1, hi2⟩ := List.mem_range'_1.mp hi
    exact ⟨hi1, (by omega : i ≤ n), rfl⟩
  have hparses : ∀ a ∈ sub, parseSharePoint a =
      some ((a.id : ℤ), evalPoly coeffs (a.id : ℤ)) := by
    intro a ha
    obtain ⟨_, _, hdata⟩ := hmemsub a ha
    obtain ⟨hy0, hyP⟩ := evalPoly_bounds coeffs (a.id : ℤ) (by positivity) hcnn
    have h2 : intToHex (evalPoly coeffs (a.id : ℤ)) =
        natToHex (evalPoly coeffs (a.id : ℤ)).toNat := by
      unfold intToHex
      rw [if_neg (by omega)]
    calc parseSharePoint a
        = parseSharePoint ⟨a.id, a.data⟩ := rfl
      _ = some ((a.id : ℤ), ((evalPoly coeffs (a.id : ℤ)).toNat : ℤ)) := by
          rw [hdata, intToHex_ofNat, h2]
          exact parseSharePoint_mk a.id a.id _
      _ = some ((a.id : ℤ), evalPoly coeffs (a.id : ℤ)) := by
          rw [Int.toNat_of_nonneg hy0]
  have hparse : sub.mapM parseSharePoint =
      some (sub.map fun a => ((a.id : ℤ), evalPoly coeffs (a.id : ℤ))) :=
    mapM_some_of_forall _ _ sub hparses
  set pts : List (ℤ × ℤ) := sub.map (fun a => ((a.id : ℤ), evalPoly coeffs (a.id : ℤ)))
    with hpts
  have hptslen : pts.length = k - 1 := by rw [hpts, List.length_map, hslen]
  have hclen : coeffs.length = k := by
    rw [hcoeffs, List.length_cons, hrlen]
    omega
  have hidsne : shares.Pairwise fun a b : Share => a.id ≠ b.id := by
    rw [hshares, List.pairwise_map]
    exact (List.pairwise_lt_range' 1 n).imp fun h => Nat.ne_of_lt h
  have hsubpw : sub.Pairwise fun a b : Share => a.id ≠ b.id := by
    obtain ⟨l, hlp, hls⟩ := hsub
    have hl : l.Pairwise fun a b : Share => a.id ≠ b.id := hidsne.sublist hls
    exact (List.Perm.pairwise_iff (fun hab => Ne.symm hab) hlp).mp hl
  have h10P : 10 < pModN := ten_lt_pModN
  have hid_lt : ∀ a ∈ sub, a.id < pModN := fun a ha => by
    obtain ⟨_, h2, _⟩ := hmemsub a ha
    omega
  have hdist : pts.Pairwise fun p q : ℤ × ℤ =>
      ((p.1 : ℤ) : ZMod pModN) ≠ ((q.1 : ℤ) : ZMod pModN) := by
    rw [hpts, List.pairwise_map]
    refine hsubpw.imp_of_mem ?_
    intro a b ha hb hne hcast
    apply hne
    have h1 : ((a.id : ℕ) : ZMod pModN) = ((b.id : ℕ) : ZMod pModN) := by
      exact_mod_cast hcast
    have h2 := congrArg ZMod.val h1
    rwa [ZMod.val_natCast_of_lt (hid_lt a ha), ZMod.val_natCast_of_lt (hid_lt b hb)] at h2
  have hy : ∀ r ∈ pts, ((r.2 : ℤ) : ZMod pModN) =
      (polyOfCoeffs coeffs).eval ((r.1 : ℤ) : ZMod pModN) := by
    intro r hr
    rw [hpts] at hr
    obtain ⟨a, _, rfl⟩ := List.mem_map.mp hr
    exact polyOfCoeffs_eval_cast coeffs (a.id : ℤ)
  have hxne : ∀ p ∈ pts, ((p.1 : ℤ) : ZMod pModN) ≠ 0 := by
    intro p hp
    rw [hpts] at hp
    obtain ⟨a, ha, rfl⟩ := List.mem_map.mp hp
    obtain ⟨h1, _, _⟩ := hmemsub a ha
    intro hzero
    dsimp only at hzero
    have hz : ((a.id : ℕ) : ZMod pModN) = 0 := by exact_mod_cast hzero
    have hval := congrArg ZMod.val hz
    rw [ZMod.val_natCast_of_lt (hid_lt a ha), ZMod.val_zero] at hval
    omega
  obtain ⟨v, hvP, hrec, hphex, hvcast⟩ := reconstructSecret_spec sub pts hparse
  have hsum := lagrange_terms_sum_sub pts coeffs (by rw [hptslen, hclen]; omega) hdist hy
  have hprod : (∏ j ∈ Finset.range pts.length,
      (0 - (((pts.getD j (0, 0)).1 : ℤ) : ZMod pModN))) ≠ 0 := by
    rw [Finset.prod_ne_zero_iff]
    intro j hj
    rw [zero_sub, neg_ne_zero]
    refine hxne _ ?_
    rw [List.getD_eq_getElem pts (0, 0) (Finset.mem_range.mp hj)]
    exact List.getElem_mem _
  have hctop : coeffs.getD pts.length 0 = randoms.getD (k - 2) 0 := by
    have hidx : pts.length = (k - 2) + 1 := by omega
    rw [hcoeffs, hidx, List.getD_cons_succ]
  have hg0 : coeffs.getD 0 0 = (s : ℤ) := by rw [hcoeffs]; rfl
  have hchar : ((v : ℤ) : ZMod pModN) =
      ((s : ℤ) : ZMod pModN) -
        ((randoms.getD (k - 2) 0 : ℤ) : ZMod pModN) *
          ∏ j ∈ Finset.range pts.length,
            (0 - (((pts.getD j (0, 0)).1 : ℤ) : ZMod pModN)) := by
    rw [hvcast, hsum, hctop, hg0]
  have hsP : ((s : ℕ) : ℤ) < PRIME_MODULUS := by
    have h1 : ((s : ℕ) : ℤ) < 2 ^ 256 := by exact_mod_cast hsmall
    exact lt_trans h1 two_pow_256_lt_P
  refine ⟨padHex (natToHex v), v, hrec, hphex, ?_, ?_⟩
  · intro hveq
    have h1 : ((v : ℤ) : ZMod pModN) = ((s : ℤ) : ZMod pModN) := by rw [hveq]
    rw [hchar] at h1
    have h2 := sub_eq_self.mp h1
    rcases mul_eq_zero.mp h2 with h | h
    · exact h
    · exact absurd h hprod
  · intro hzero
    have h1 : ((v : ℤ) : ZMod pModN) = ((s : ℤ) : ZMod pModN) := by
      rw [hchar, hzero, zero_mul, sub_zero]
    have hveq := int_eq_emod_of_cast (v : ℤ) ((s : ℕ) : ℤ) (by positivity) hvP h1
    rw [Int.emod_eq_of_lt (by positivity) hsP] at hveq
    exact_mod_cast hveq

theorem subthreshold_reconstruction_off_witness :
    ∃ (hex : List Char) (v : ℕ),
      reconstructSecret [Share.mk 1 ( "1-2".toList)] = some hex ∧
      parseHex hex = some v ∧
      (v = 1 ↔ ((([(1 : ℤ)].getD (2 - 2) 0 : ℤ)) : ZMod pModN) = 0) :=
  subthreshold_reconstruction_off ( "1".toList) 1 2 2 [1]
    [Share.mk 1 ( "1-2".toList), Share.mk 2 ( "2-3".toList)]
    [Share.mk 1 ( "1-2".toList)]
    (by decide) (by decide) (by decide) (by decide) (by decide)
    (by decide) (by decide) (by decide)
    ⟨[Share.mk 1 ( "1-2".toList)], List.Perm.refl _,
      List.Sublist.cons₂ _ (List.nil_sublist _)⟩ (by decide)

-- ### Claim C10: the encoding utilities are inverse pairs

/-- For a byte, the padded hex pair is exactly the two digit characters. -/
theorem byteToHexPair_eq {v : ℕ} (hv : v < 256) :
    byteToHexPair v = [hexDigitChar (v / 16), hexDigitChar (v % 16)] := by
  have h : ∀ i : Fin 256, byteToHexPair i.val =
      [hexDigitChar (i.val / 16), hexDigitChar (i.val % 16)] := by decide
  exact h ⟨v, hv⟩

theorem hexToBuffer_bufferToHex (buf : List ℕ) (hb : ∀ b ∈ buf, b < 256) :
    hexToBuffer (bufferToHex buf) = buf := by
  induction buf with
  | nil => rfl
  | cons v rest ih =>
    have hv : v < 256 := hb v (List.mem_cons_self v rest)
    have hrest := ih (fun b hbm => hb b (List.mem_cons_of_mem v hbm))
    have hstep : bufferToHex (v :: rest) =
        hexDigitChar (v / 16) :: hexDigitChar (v % 16) :: bufferToHex rest := by
      unfold bufferToHex
      rw [List.map_cons, List.flatten_cons, byteToHexPair_eq hv]
      rfl
    rw [hstep]
    show parseIntByte (hexDigitChar (v / 16)) (hexDigitChar (v % 16)) ::
      hexToBuffer (bufferToHex rest) = v :: rest
    rw [hrest]
    congr 1
    simp only [parseIntByte, hexCharVal_hexDigitChar (show v / 16 < 16 by omega),
      hexCharVal_hexDigitChar (show v % 16 < 16 by omega)]
    omega

theorem bufferToHex_length (buf : List ℕ) (hb : ∀ b ∈ buf, b < 256) :
    (bufferToHex buf).length = 2 * buf.length := by
  induction buf with
  | nil => rfl
  | cons v rest ih =>
    have hv : v < 256 := hb v (List.mem_cons_self v rest)
    have hrest := ih (fun b hbm => hb b (List.mem_cons_of_mem v hbm))
    unfold bufferToHex at hrest ⊢
    rw [List.map_cons, List.flatten_cons, List.length_append, byteToHexPair_eq hv, hrest]
    simp only [List.length_cons, List.length_nil]
    omega

theorem bufferToHex_lowercase (buf : List ℕ) (hb : ∀ b ∈ buf, b < 256) :
    ∀ c ∈ bufferToHex buf,
      (48 ≤ c.toNat ∧ c.toNat ≤ 57) ∨ (97 ≤ c.toNat ∧ c.toNat ≤ 102) := by
  intro c hc
  unfold bufferToHex at hc
  rw [List.mem_flatten] at hc
  obtain ⟨l, hl, hcl⟩ := hc
  rcases List.mem_map.mp hl with ⟨v, hv, rfl⟩
  have hv256 := hb v hv
  rw [byteToHexPair_eq hv256] at hcl
  rcases List.mem_cons.mp hcl with rfl | hcl2
  · exact hexDigitChar_lowercase (by omega)
  · rcases List.mem_cons.mp hcl2 with rfl | hcl3
    · exact hexDigitChar_lowercase (by omega)
    · exact absurd hcl3 (List.not_mem_nil c)

theorem b64CharVal_b64Char {d : ℕ} (hd : d < 64) : b64CharVal (b64Char d) = some d := by
  have h : ∀ i : Fin 64, b64CharVal (b64Char i.val) = some i.val := by decide
  exact h ⟨d, hd⟩

theorem b64Char_ne_pad {d : ℕ} (hd : d < 64) : b64Char d ≠ Char.ofNat 61 := by
  have h : ∀ i : Fin 64, b64Char i.val ≠ Char.ofNat 61 := by decide
  exact h ⟨d, hd⟩

theorem mapM_b64CharVal_map (l : List ℕ) (hl : ∀ d ∈ l, d < 64) :
    (l.map b64Char).mapM b64CharVal = some l := by
  induction l with
  | nil => rfl
  | cons d rest ih =>
    rw [List.map_cons, List.mapM_cons, b64CharVal_b64Char (hl d (by simp)),
      ih fun x hx => hl x (by simp [hx])]
    rfl

theorem b64Pad_congr {m n : ℕ} (h : m % 3 = n % 3) : b64Pad m = b64Pad n := by
  unfold b64Pad
  rw [h]

/-- The encoder is its 6-bit value stream rendered in the alphabet, plus
the padding determined by the input length. -/
theorem bufferToBase64_eq : ∀ buf : List ℕ,
    bufferToBase64 buf = (b64Vals buf).map b64Char ++ b64Pad buf.length
  | [] => rfl
  | [_] => rfl
  | [_, _] => rfl
  | a :: b :: c :: rest => by
    have hpad : b64Pad (a :: b :: c :: rest).length = b64Pad rest.length :=
      b64Pad_congr (by simp only [List.length_cons]; omega)
    show b64Char (a / 4) :: b64Char (a % 4 * 16 + b / 16) ::
        b64Char (b % 16 * 4 + c / 64) :: b64Char (c % 64) :: bufferToBase64 rest =
      (b64Vals (a :: b :: c :: rest)).map b64Char ++ b64Pad (a :: b :: c :: rest).length
    rw [bufferToBase64_eq rest, hpad]
    show _ = (a / 4 :: (a % 4 * 16 + b / 16) :: (b % 16 * 4 + c / 64) :: c % 64 ::
        b64Vals rest).map b64Char ++ b64Pad rest.length
    simp only [List.map_cons, List.cons_append]

theorem bufferToBase64_length_mod4 : ∀ buf : List ℕ,
    (bufferToBase64 buf).length % 4 = 0
  | [] => rfl
  | [_] => by
    unfold bufferToBase64
    simp
  | [_, _] => by
    unfold bufferToBase64
    simp
  | a :: b :: c :: rest => by
    have ih := bufferToBase64_length_mod4 rest
    show (b64Char (a / 4) :: b64Char (a % 4 * 16 + b / 16) ::
        b64Char (b % 16 * 4 + c / 64) :: b64Char (c % 64) ::
        bufferToBase64 rest).length % 4 = 0
    simp only [List.length_cons]
    omega

theorem b64Vals_length_mod : ∀ buf : List ℕ, (b64Vals buf).length % 4 ≠ 1
  | [] => by decide
  | [a] => by
    show (2 : ℕ) % 4 ≠ 1
    decide
  | [a, b] => by
    show (3 : ℕ) % 4 ≠ 1
    decide
  | a :: b :: c :: rest => by
    have ih := b64Vals_length_mod rest
    show (a / 4 :: (a % 4 * 16 + b / 16) :: (b % 16 * 4 + c / 64) :: c % 64 ::
        b64Vals rest).length % 4 ≠ 1
    simp only [List.length_cons]
    omega

theorem b64Vals_lt : ∀ buf : List ℕ, (∀ b ∈ buf, b < 256) → ∀ v ∈ b64Vals buf, v < 64
  | [], _, v, hv => absurd hv (List.not_mem_nil v)
  | [a], hb, v, hv => by
    have ha : a < 256 := hb a (by simp)
    rcases List.mem_cons.mp hv with rfl | hv2
    · omega
    · rcases List.mem_cons.mp hv2 with rfl | hv3
      · omega
      · exact absurd hv3 (List.not_mem_nil v)
  | [a, b], hb, v, hv => by
    have ha : a < 256 := hb a (by simp)
    have hbb : b < 256 := hb b (by simp)
    rcases List.mem_cons.mp hv with rfl | hv2
    · omega
    · rcases List.mem_cons.mp hv2 with rfl | hv3
      · omega
      · rcases List.mem_cons.mp hv3 with rfl | hv4
        · omega
        · exact absurd hv4 (List.not_mem_nil v)
  | a :: b :: c :: rest, hb, v, hv => by
    have ha : a < 256 := hb a (by simp)
    have hbb : b < 256 := hb b (by simp)
    have hc : c < 256 := hb c (by simp)
    rcases List.mem_cons.mp hv with rfl | hv2
    · omega
    · rcases List.mem_cons.mp hv2 with rfl | hv3
      · omega
      · rcases List.mem_cons.mp hv3 with rfl | hv4
        · omega
        · rcases List.mem_cons.mp hv4 with rfl | hv5
          · omega
          · exact b64Vals_lt rest (fun x hx => hb x (by simp [hx])) v hv5

theorem b64DecodeGroups_b64Vals : ∀ buf : List ℕ, (∀ b ∈ buf, b < 256) →
    b64DecodeGroups (b64Vals buf) = buf
  | [], _ => rfl
  | [a], hb => by
    have ha : a < 256 := hb a (by simp)
    show [a / 4 * 4 + a % 4 * 16 / 16] = [a]
    congr 1
    omega
  | [a, b], hb => by
    have ha : a < 256 := hb a (by simp)
    have hbb : b < 256 := hb b (by simp)
    show [a / 4 * 4 + (a % 4 * 16 + b / 16) / 16,
      (a % 4 * 16 + b / 16) % 16 * 16 + b % 16 * 4 / 4] = [a, b]
    have h1 : a / 4 * 4 + (a % 4 * 16 + b / 16) / 16 = a := by omega
    have h2 : (a % 4 * 16 + b / 16) % 16 * 16 + b % 16 * 4 / 4 = b := by omega
    rw [h1, h2]
  | a :: b :: c :: rest, hb => by
    have ha : a < 256 := hb a (by simp)
    have hbb : b < 256 := hb b (by simp)
    have hc : c < 256 := hb c (by simp)
    have ih := b64DecodeGroups_b64Vals rest (fun x hx => hb x (by simp [hx]))
    show (a / 4 * 4 + (a % 4 * 16 + b / 16) / 16) ::
      ((a % 4 * 16 + b / 16) % 16 * 16 + (b % 16 * 4 + c / 64) / 4) ::
      ((b % 16 * 4 + c / 64) % 4 * 64 + c % 64) :: b64DecodeGroups (b64Vals rest) =
      a :: b :: c :: rest
    rw [ih]
    have h1 : a / 4 * 4 + (a % 4 * 16 + b / 16) / 16 = a := by omega
    have h2 : (a % 4 * 16 + b / 16) % 16 * 16 + (b % 16 * 4 + c / 64) / 4 = b := by omega
    have h3 : (b % 16 * 4 + c / 64) % 4 * 64 + c % 64 = c := by omega
    rw [h1, h2, h3]

/-- Stripping the padding from an encoded buffer recovers exactly the
alphabet rendering of the 6-bit value stream. -/
theorem dropB64Pad_enc (buf : List ℕ) (hb : ∀ b ∈ buf, b < 256) :
    dropB64Pad (bufferToBase64 buf) = (b64Vals buf).map b64Char := by
  have hvals := b64Vals_lt buf hb
  have hmod := bufferToBase64_length_mod4 buf
  rw [bufferToBase64_eq] at hmod ⊢
  by_cases h1 : buf.length % 3 = 1
  · rw [show b64Pad buf.length = [Char.ofNat 61, Char.ofNat 61] from by
      unfold b64Pad; rw [if_pos h1]] at hmod ⊢
    unfold dropB64Pad
    rw [if_pos hmod]
    rw [show ((b64Vals buf).map b64Char ++ [Char.ofNat 61, Char.ofNat 61]).reverse =
        Char.ofNat 61 :: Char.ofNat 61 :: ((b64Vals buf).map b64Char).reverse from by
      rw [List.reverse_append]; rfl]
    dsimp only
    rw [if_pos rfl, if_pos rfl, List.reverse_reverse]
  · by_cases h2 : buf.length % 3 = 2
    · rw [show b64Pad buf.length = [Char.ofNat 61] from by
        unfold b64Pad; rw [if_neg h1, if_pos h2]] at hmod ⊢
      have hMlen : ((b64Vals buf).map b64Char).length % 4 = 3 := by
        rw [List.length_append] at hmod
        simp only [List.length_cons, List.length_nil] at hmod
        omega
      rcases hM : ((b64Vals buf).map b64Char).reverse with _ | ⟨c2, rest⟩
      · exfalso
        rw [List.reverse_eq_nil_iff] at hM
        rw [hM] at hMlen
        simp at hMlen
      · have hc2 : c2 ≠ Char.ofNat 61 := by
          have hmem : c2 ∈ ((b64Vals buf).map b64Char).reverse := by
            rw [hM]
            exact List.mem_cons_self _ _
          rcases List.mem_map.mp (List.mem_reverse.mp hmem) with ⟨d, hd, rfl⟩
          exact b64Char_ne_pad (hvals d hd)
        unfold dropB64Pad
        rw [if_pos hmod]
        rw [show ((b64Vals buf).map b64Char ++ [Char.ofNat 61]).reverse =
            Char.ofNat 61 :: ((b64Vals buf).map b64Char).reverse from by
          rw [List.reverse_append]; rfl]
        rw [hM]
        dsimp only
        rw [if_pos rfl, if_neg hc2, ← hM, List.reverse_reverse]
    · rw [show b64Pad buf.length = [] from by
        unfold b64Pad; rw [if_neg h1, if_neg h2]] at hmod ⊢
      rw [List.append_nil] at hmod ⊢
      unfold dropB64Pad
      rw [if_pos hmod]
      rcases hM : ((b64Vals buf).map b64Char).reverse with _ | ⟨c1, rest1⟩
      · rfl
      · rcases rest1 with _ | ⟨c2, rest2⟩
        · rfl
        · have hc1 : c1 ≠ Char.ofNat 61 := by
            have hmem : c1 ∈ ((b64Vals buf).map b64Char).reverse := by
              rw [hM]
              exact List.mem_cons_self _ _
            rcases List.mem_map.mp (List.mem_reverse.mp hmem) with ⟨d, hd, rfl⟩
            exact b64Char_ne_pad (hvals d hd)
          dsimp only
          rw [if_neg hc1]

theorem base64ToBuffer_bufferToBase64 (buf : List ℕ) (hb : ∀ b ∈ buf, b < 256) :
    base64ToBuffer (bufferToBase64 buf) = some buf := by
  show (if (dropB64Pad (bufferToBase64 buf)).length % 4 = 1 then none
    else ((dropB64Pad (bufferToBase64 buf)).mapM b64CharVal).map b64DecodeGroups) = some buf
  rw [dropB64Pad_enc buf hb]
  rw [if_neg (by rw [List.length_map]; exact b64Vals_length_mod buf)]
  rw [mapM_b64CharVal_map _ (b64Vals_lt buf hb), Option.map_some',
    b64DecodeGroups_b64Vals buf hb]

/-- C10: the encoding utilities are inverse pairs.  `bufferToHex` emits
two lowercase hex digits per byte, hence an even-length lowercase hex
string, and `hexToBuffer` inverts it; `base64ToBuffer` inverts
`bufferToBase64`. -/
theorem encoding_roundtrip (buf : List ℕ) (hb : ∀ b ∈ buf, b < 256) :
    hexToBuffer (bufferToHex buf) = buf ∧
    (bufferToHex buf).length = 2 * buf.length ∧
    Even (bufferToHex buf).length ∧
    (∀ c ∈ bufferToHex buf,
      (48 ≤ c.toNat ∧ c.toNat ≤ 57) ∨ (97 ≤ c.toNat ∧ c.toNat ≤ 102)) ∧
    base64ToBuffer (bufferToBase64 buf) = some buf :=
  ⟨hexToBuffer_bufferToHex buf hb,
   bufferToHex_length buf hb,
   ⟨buf.length, by rw [bufferToHex_length buf hb]; ring⟩,
   bufferToHex_lowercase buf hb,
   base64ToBuffer_bufferToBase64 buf hb⟩

theorem encoding_roundtrip_witness :
    hexToBuffer (bufferToHex [0, 255, 16]) = [0, 255, 16] ∧
    (bufferToHex [0, 255, 16]).length = 2 * ([0, 255, 16] : List ℕ).length ∧
    Even (bufferToHex [0, 255, 16]).length ∧
    (∀ c ∈ bufferToHex [0, 255, 16],
      (48 ≤ c.toNat ∧ c.toNat ≤ 57) ∨ (97 ≤ c.toNat ∧ c.toNat ≤ 102)) ∧
    base64ToBuffer (bufferToBase64 [0, 255, 16]) = some [0, 255, 16] :=
  encoding_roundtrip [0, 255, 16] (by decide)
